import Mathlib

/-!
Shallow embedding of `src/inverted_index.py` (sharded inverted index with
TF-IDF search, phrase search and compressed persistence).

Modelling conventions:
* Python `dict`s are association lists (`List (key × value)`) that keep
  insertion order; assignment to an existing key keeps its position, a new
  key is appended at the end, exactly as CPython dicts behave.
* Python `float` scores are modelled as exact rationals; `math.log` is an
  explicit parameter `lg : ℚ → ℚ` of the query engine.  `math.log x` raises
  `ValueError` for `x ≤ 0`, and integer division by zero raises
  `ZeroDivisionError`; both faults are modelled by returning `none`.
* Python's builtin `hash` for one process run is an arbitrary fixed function
  `h : String → Nat`; every operation takes it as a parameter.
* Document ids are `Int` (Python ints), positions are `Nat`.
-/

/-- Association-list lookup (Python `d[k]` / `k in d` test). Finds the first
binding of the key; dicts built by the operations below have unique keys. -/
def alGet {α β : Type} [DecidableEq α] : List (α × β) → α → Option β
  | [], _ => none
  | (k', v) :: t, k => if k' = k then some v else alGet t k

/-- Python dict assignment `d[k] = v`: overwrite in place if the key exists
(keeping its position), otherwise append the new binding at the end. -/
def alSet {α β : Type} [DecidableEq α] : List (α × β) → α → β → List (α × β)
  | [], k, v => [(k, v)]
  | (k', v') :: t, k, v => if k' = k then (k', v) :: t else (k', v') :: alSet t k v

/-- Get-or-create-then-append: `d.setdefault(k, []).append(x)` semantics used
by the ingestion path for position lists. -/
def alApp {α β : Type} [DecidableEq α] : List (α × List β) → α → β → List (α × List β)
  | [], k, x => [(k, [x])]
  | (k', v) :: t, k, x => if k' = k then (k', v ++ [x]) :: t else (k', v) :: alApp t k x

/-- Python whitespace characters recognised by `str.split()` and `\s`
(space, tab, newline, carriage return, vertical tab, form feed; the claims
only exercise ASCII text). -/
def pyIsSpace (c : Char) : Bool :=
  c = ' ' || c = '\t' || c = '\n' || c = '\r' || c = Char.ofNat 11 || c = Char.ofNat 12

/-- Lowercase ASCII letter test, the character class `[a-z]` of the cleanup
regex in `preprocess_text`. -/
def isLowerAZ (c : Char) : Bool := 'a' ≤ c && c ≤ 'z'

/-- Whitespace splitter: maximal runs of non-space characters, empty tokens
dropped (`text.split()` in Python). The first argument accumulates the
current word reversed. -/
def splitWords : List Char → List Char → List String
  | acc, [] => if acc = [] then [] else [String.mk acc.reverse]
  | acc, c :: t =>
    if pyIsSpace c then
      if acc = [] then splitWords [] t else String.mk acc.reverse :: splitWords [] t
    else splitWords (c :: acc) t

/-- `InvertedIndex.preprocess_text`: lowercase, delete every character that
is not `[a-z]` or whitespace (the regex `re.sub(r'[^a-z\s]', '', ·)`), split
on whitespace, drop empties.  An empty input yields `[]`. -/
def preprocess_text (text : String) : List String :=
  let cleaned := (text.data.map Char.toLower).filter fun c => isLowerAZ c || pyIsSpace c
  splitWords [] cleaned

/-- One shard of the index: `word -> {doc_id -> [positions]}` plus the dirty
flag.  (`shard_id`, `base_path` and the lock are operational details carried
by the surrounding state / persistence model.) -/
structure IndexShard where
  index : List (String × List (Int × List Nat))
  is_dirty : Bool
deriving DecidableEq, Repr

/-- The in-memory state of `InvertedIndex`: shard list (position = shard id),
document lengths, total document count. -/
structure InvertedIndex where
  num_shards : Nat
  shards : List IndexShard
  doc_lengths : List (Int × Nat)
  total_docs : Nat
deriving DecidableEq, Repr

/-- A freshly constructed `InvertedIndex(base_path, n)` before any load:
`n` empty shards, empty metadata. -/
def emptyIndex (n : Nat) : InvertedIndex :=
  { num_shards := n
    shards := List.replicate n { index := [], is_dirty := false }
    doc_lengths := []
    total_docs := 0 }

/-- `InvertedIndex._get_shard_for_word`, result as a shard id:
`hash(word) % self.num_shards`. -/
def shardIdFor (h : String → Nat) (n : Nat) (w : String) : Nat := h w % n

/-- Fetch the shard a word routes to (`self.shards[shard_id]`). -/
def getShard (h : String → Nat) (s : InvertedIndex) (w : String) : IndexShard :=
  s.shards.getD (shardIdFor h s.num_shards w) { index := [], is_dirty := false }

/-- Per-shard buffer built by the collect phase of
`_process_document_batch`: `shard_id -> word -> [(doc_id, position)]`. -/
abbrev ShardBuffer := List (Nat × List (String × List (Int × Nat)))

/-- Append one `(doc_id, position)` occurrence for `word` into the buffer
entry of shard `sid` (nested defaultdict append). -/
def bufApp (b : ShardBuffer) (sid : Nat) (w : String) (occ : Int × Nat) : ShardBuffer :=
  match b with
  | [] => [(sid, [(w, [occ])])]
  | (sid', wd) :: t =>
    if sid' = sid then (sid, alApp wd w occ) :: t else (sid', wd) :: bufApp t sid w occ

/-- Collect phase for a single document: walk `enumerate(words)` and buffer
each occurrence under `hash(word) % num_shards`. -/
def collectDoc (h : String → Nat) (n : Nat) (d : Int) (ws : List String) (b : ShardBuffer) :
    ShardBuffer :=
  ws.enum.foldl (fun b' pw => bufApp b' (shardIdFor h n pw.2) pw.2 (d, pw.1)) b

/-- The single append of the apply phase: `shard.index[word][doc_id].append(position)`
with get-or-create of the inner list. -/
def postApp (ix : List (String × List (Int × List Nat))) (w : String) (d : Int) (p : Nat) :
    List (String × List (Int × List Nat)) :=
  match ix with
  | [] => [(w, [(d, [p])])]
  | (w', dm) :: t => if w' = w then (w, alApp dm d p) :: t else (w', dm) :: postApp t w d p

/-- `update_shard` in `_process_document_batch`: apply all buffered
`(word, [(doc, pos)])` entries to one shard and mark it dirty. -/
def updateShard (sh : IndexShard) (wd : List (String × List (Int × Nat))) : IndexShard :=
  { index := wd.foldl (fun ix wo => wo.2.foldl (fun ix2 dp => postApp ix2 wo.1 dp.1 dp.2) ix) sh.index
    is_dirty := true }

/-- Dispatch one buffered shard update (`self.shards[shard_id]` mutation).
Out-of-range shard ids never occur for well-formed states since
`shard_id = hash(word) % num_shards < num_shards`. -/
def applyToShards (shs : List IndexShard) (e : Nat × List (String × List (Int × Nat))) :
    List IndexShard :=
  match shs.get? e.1 with
  | none => shs
  | some sh => shs.set e.1 (updateShard sh e.2)

/-- `InvertedIndex._process_document_batch`: collect words/positions and
document lengths single-threaded, then apply each shard's buffered work.
The parallel apply phase touches disjoint shards, so its outcome equals
this sequential fold over the buffer. -/
def processBatch (h : String → Nat) (s : InvertedIndex) (docs : List (Int × String)) :
    InvertedIndex :=
  let step := fun (acc : ShardBuffer × List (Int × Nat)) (dc : Int × String) =>
    let ws := preprocess_text dc.2
    (collectDoc h s.num_shards dc.1 ws acc.1, alSet acc.2 dc.1 ws.length)
  let collected := docs.foldl step ([], s.doc_lengths)
  { s with
    shards := collected.1.foldl applyToShards s.shards
    doc_lengths := collected.2 }

/-- Batching loop of `add_documents`, with fuel for structural recursion
(fuel is always instantiated with the document count, which bounds the
number of batches since batches are nonempty for `bs ≥ 1`). -/
def addDocsAux (h : String → Nat) (bs : Nat) :
    Nat → InvertedIndex → List (Int × String) → InvertedIndex
  | 0, s, _ => s
  | _ + 1, s, [] => s
  | fuel + 1, s, docs@(_ :: _) =>
    let s' := processBatch h s (docs.take bs)
    addDocsAux h bs fuel
      { s' with total_docs := s'.total_docs + (docs.take bs).length }
      (docs.drop bs)

/-- `InvertedIndex.add_documents`: process the stream in batches of `bs`
documents (default 1000), advancing `total_docs` by the batch size after each
batch.  The trailing `_save_metadata` disk write is modelled separately by
the persistence functions below. -/
def add_documents (h : String → Nat) (bs : Nat) (s : InvertedIndex)
    (docs : List (Int × String)) : InvertedIndex :=
  addDocsAux h bs docs.length s docs

/-- `process_term` inside `InvertedIndex.search`.  Returns the per-term score
dict, or `none` for the faults the Python code can raise on this path:
`ZeroDivisionError` (df = 0 or a zero document length) and `ValueError` from
`math.log` of a non-positive argument (exactly the case `total_docs = 0`,
since `df ≥ 1` makes `total_docs/df ≤ 0 ↔ total_docs = 0`).  `lg` stands for
`math.log`; note the idf is computed before the `use_tfidf` test, as in the
source. -/
def processTerm (h : String → Nat) (lg : ℚ → ℚ) (s : InvertedIndex)
    (use_tfidf : Bool) (t : String) : Option (List (Int × ℚ)) :=
  match alGet (getShard h s t).index t with
  | none => some []
  | some dm =>
    if dm.length = 0 then none
    else if s.total_docs = 0 then none
    else
      let idf := lg ((s.total_docs : ℚ) / (dm.length : ℚ))
      if use_tfidf then
        dm.foldl
          (fun acc dps =>
            match acc with
            | none => none
            | some m =>
              match alGet s.doc_lengths dps.1 with
              | none => none
              | some L =>
                if L = 0 then none
                else some (alSet m dps.1 (((dps.2.length : ℚ) / (L : ℚ)) * idf)))
          (some [])
      else
        some (dm.foldl (fun m dps => alSet m dps.1 (1 : ℚ)) [])

/-- Merging one term's score dict into the running `scores` defaultdict:
`scores[doc_id] += score` for each entry. -/
def mergeScores (m tm : List (Int × ℚ)) : List (Int × ℚ) :=
  tm.foldl (fun m2 dv => alSet m2 dv.1 ((alGet m2 dv.1).getD 0 + dv.2)) m

/-- Fan-out/fan-in of `search`: one `process_term` per query-term occurrence
(the source iterates `query_terms`, not its deduplication), merged in order;
any fault in any task propagates. -/
def searchScores (h : String → Nat) (lg : ℚ → ℚ) (s : InvertedIndex)
    (terms : List String) (use_tfidf : Bool) : Option (List (Int × ℚ)) :=
  terms.foldl
    (fun acc t =>
      match acc, processTerm h lg s use_tfidf t with
      | some m, some tm => some (mergeScores m tm)
      | _, _ => none)
    (some [])

/-- Stable descending insertion by score: the new entry goes after existing
entries with an equal or larger score, matching Python's stable
`sorted(..., key=score, reverse=True)`. -/
def insertScoreDesc (x : Int × ℚ) : List (Int × ℚ) → List (Int × ℚ)
  | [] => [x]
  | y :: t => if x.2 ≤ y.2 then y :: insertScoreDesc x t else x :: y :: t

/-- Stable sort of the merged score dict, highest score first. -/
def sortScoresDesc (l : List (Int × ℚ)) : List (Int × ℚ) :=
  l.foldl (fun acc x => insertScoreDesc x acc) []

/-- `search` after tokenization: empty token list short-circuits to `[]`,
otherwise score, sort descending (stably) and truncate to `max_results`. -/
def searchTokens (h : String → Nat) (lg : ℚ → ℚ) (s : InvertedIndex)
    (ts : List String) (use_tfidf : Bool) (max_results : Nat) : Option (List (Int × ℚ)) :=
  if ts = [] then some []
  else (searchScores h lg s ts use_tfidf).map fun sc => (sortScoresDesc sc).take max_results

/-- `InvertedIndex.search`: tokenize the query and run the scoring pipeline.
`none` models an uncaught Python exception escaping `search`. -/
def search (h : String → Nat) (lg : ℚ → ℚ) (s : InvertedIndex) (query : String)
    (use_tfidf : Bool) (max_results : Nat) : Option (List (Int × ℚ)) :=
  searchTokens h lg s (preprocess_text query) use_tfidf max_results

/-- Position list of `word` for `doc_id`:
`shard.index[word].get(doc_id, [])` with `[]` as well for an absent word. -/
def getPositions (h : String → Nat) (s : InvertedIndex) (w : String) (d : Int) : List Nat :=
  match alGet (getShard h s w).index w with
  | none => []
  | some dm => (alGet dm d).getD []

/-- Candidate intersection of `phrase_search`: keep the candidates whose doc
id carries every remaining word; `none` models the short-circuit `return
set()` when some word is absent from its shard. -/
def candidateFilter (h : String → Nat) (s : InvertedIndex) (ws : List String)
    (cand : List Int) : Option (List Int) :=
  ws.foldl
    (fun acc w =>
      match acc with
      | none => none
      | some c =>
        match alGet (getShard h s w).index w with
        | none => none
        | some dm => some (c.filter fun d => (alGet dm d).isSome))
    (some cand)

/-- Inner check of `phrase_search`: does word `i+1` of the phrase occur at
`pos + i + 1` for every remaining word (`enumerate(words[1:], 1)`)? -/
def checkPos (h : String → Nat) (s : InvertedIndex) (rest : List String) (d : Int)
    (p : Nat) : Bool :=
  rest.enum.all fun iw => decide ((p + iw.1 + 1) ∈ getPositions h s iw.2 d)

/-- Per-candidate check: some occurrence position of the first word starts a
contiguous run of the whole phrase (the source breaks after the first hit,
so membership in the result is this `any`). -/
def checkDoc (h : String → Nat) (s : InvertedIndex) (w0 : String) (rest : List String)
    (d : Int) : Bool :=
  (getPositions h s w0 d).any fun p => checkPos h s rest d p

/-- Split a list into chunks of `b` (fuel-driven; `fuel ≥ l.length` and
`b ≥ 1` make it total in the intended range).  Models
`range(0, len(candidate_docs), batch_size)` + `islice`. -/
def chunksAux {α : Type} (b : Nat) : Nat → List α → List (List α)
  | 0, _ => []
  | _ + 1, [] => []
  | fuel + 1, l@(_ :: _) => l.take b :: chunksAux b fuel (l.drop b)

/-- `phrase_search` with an explicit candidate-group size `b` (the source
fixes `b = 100`). -/
def phraseSearchWith (b : Nat) (h : String → Nat) (s : InvertedIndex)
    (phrase : String) : List Int :=
  match preprocess_text phrase with
  | [] => []
  | w0 :: rest =>
    match alGet (getShard h s w0).index w0 with
    | none => []
    | some dm0 =>
      let cand0 := (dm0.map Prod.fst).dedup
      match candidateFilter h s rest cand0 with
      | none => []
      | some cands =>
        (chunksAux b cands.length cands).foldl
          (fun res batch => res ++ batch.filter fun d => checkDoc h s w0 rest d) []

/-- `InvertedIndex.phrase_search`: result as the list of matching candidates
(the Python `set`; candidates are deduplicated so each id appears once). -/
def phrase_search (h : String → Nat) (s : InvertedIndex) (phrase : String) : List Int :=
  phraseSearchWith 100 h s phrase

/-- Deserialization failure of a persisted file
(`pickle`/`zlib` exception while loading an existing file). -/
inductive LoadError where
  | malformed
deriving DecidableEq, Repr

/-- `IndexShard.save` over an abstract serializer and the shard's file slot:
not dirty → no write, state and file unchanged; dirty → write the full
serialized mapping and clear the flag. -/
def IndexShard.save {β : Type} (ser : List (String × List (Int × List Nat)) → β)
    (sh : IndexShard) (file : Option β) : IndexShard × Option β :=
  if sh.is_dirty then ({ sh with is_dirty := false }, some (ser sh.index)) else (sh, file)

/-- `IndexShard.load` over an abstract deserializer: an absent file leaves
the shard untouched (empty index from construction); an existing file that
fails to deserialize propagates the error; otherwise the mapping is
replaced by the file contents. -/
def IndexShard.load {β : Type} (deser : β → Option (List (String × List (Int × List Nat))))
    (sh : IndexShard) (file : Option β) : Except LoadError IndexShard :=
  match file with
  | none => .ok sh
  | some b =>
    match deser b with
    | none => .error .malformed
    | some ix => .ok { sh with index := ix }

/-- The metadata record persisted by `_save_metadata`. -/
structure Metadata where
  doc_lengths : List (Int × Nat)
  total_docs : Nat
deriving DecidableEq, Repr

/-- Metadata half of `InvertedIndex._load_metadata`: absent file keeps the
fresh empty statistics, unreadable file propagates, readable file installs
`doc_lengths` and `total_docs`. -/
def loadMetadata {β : Type} (deser : β → Option Metadata) (s : InvertedIndex)
    (file : Option β) : Except LoadError InvertedIndex :=
  match file with
  | none => .ok s
  | some b =>
    match deser b with
    | none => .error .malformed
    | some md => .ok { s with doc_lengths := md.doc_lengths, total_docs := md.total_docs }

/-- Shard-loading loop of `_load_metadata`: each shard loads from its own
file slot (position = shard id); the first failure propagates. -/
def loadShards {β : Type} (deser : β → Option (List (String × List (Int × List Nat)))) :
    List IndexShard → List (Option β) → Except LoadError (List IndexShard)
  | [], _ => .ok []
  | sh :: t, files =>
    match sh.load deser (files.headD none) with
    | .error e => .error e
    | .ok sh' =>
      match loadShards deser t files.tail with
      | .error e => .error e
      | .ok t' => .ok (sh' :: t')

/-- The full load path run at construction (`__init__` → `_load_metadata`):
start from a fresh empty index, install metadata if its file exists, then
load every shard from its file.  Any unreadable existing file aborts the
construction with the deserialization error. -/
def loadIndex {β : Type} (deserM : β → Option Metadata)
    (deserS : β → Option (List (String × List (Int × List Nat)))) (n : Nat)
    (metaFile : Option β) (shardFiles : List (Option β)) : Except LoadError InvertedIndex :=
  match loadMetadata deserM (emptyIndex n) metaFile with
  | .error e => .error e
  | .ok s =>
    match loadShards deserS s.shards shardFiles with
    | .error e => .error e
    | .ok shs => .ok { s with shards := shs }

/-- Modelled from the spec: Python's builtin `hash` on `str` — the function
`_get_shard_for_word` routes with — is not part of the repository's source;
per §4.2/§9 of the spec it is the language's built-in string hash, which is
salted by a per-process random seed (PYTHONHASHSEED), hence deterministic
within one process run but not stable across process restarts.  It is
modelled as a seed-indexed family of string hashes. -/
def pyHashStr (seed : Nat) (w : String) : Nat :=
  w.data.foldl (fun a c => a * 33 + c.toNat) seed

/-- `InvertedIndex._get_shard_for_word` as a shard id, with the process's
hash seed explicit: `hash(word) % self.num_shards`. -/
def shard_for (seed : Nat) (w : String) (n : Nat) : Nat :=
  pyHashStr seed w % n


/-! ## Association-list lemmas (the dict model) -/

/-- Keys of a dict are pairwise distinct. -/
def keysNodup {α β : Type} (l : List (α × β)) : Prop := (l.map Prod.fst).Nodup

instance {α β : Type} [DecidableEq α] (l : List (α × β)) : Decidable (keysNodup l) := by
  unfold keysNodup; infer_instance

theorem alGet_alSet_self {α β : Type} [DecidableEq α] (l : List (α × β)) (k : α) (v : β) :
    alGet (alSet l k v) k = some v := by
  induction l with
  | nil => simp [alGet, alSet]
  | cons hd t ih =>
    obtain ⟨a, b⟩ := hd
    by_cases h : a = k <;> simp [alGet, alSet, h, ih]

theorem alGet_alSet_ne {α β : Type} [DecidableEq α] (l : List (α × β)) (k k' : α) (v : β)
    (hne : k' ≠ k) : alGet (alSet l k v) k' = alGet l k' := by
  induction l with
  | nil => simp [alGet, alSet, hne.symm]
  | cons hd t ih =>
    obtain ⟨a, b⟩ := hd
    by_cases h : a = k
    · subst h; simp [alGet, alSet, hne.symm]
    · by_cases h' : a = k' <;> simp [alGet, alSet, h, h', hne, ih]

theorem alGet_alApp_self {α β : Type} [DecidableEq α] (l : List (α × List β)) (k : α) (x : β) :
    alGet (alApp l k x) k = some ((alGet l k).getD [] ++ [x]) := by
  induction l with
  | nil => simp [alGet, alApp]
  | cons hd t ih =>
    obtain ⟨a, b⟩ := hd
    by_cases h : a = k <;> simp [alGet, alApp, h, ih]

theorem alGet_alApp_ne {α β : Type} [DecidableEq α] (l : List (α × List β)) (k k' : α) (x : β)
    (hne : k' ≠ k) : alGet (alApp l k x) k' = alGet l k' := by
  induction l with
  | nil => simp [alGet, alApp, hne.symm]
  | cons hd t ih =>
    obtain ⟨a, b⟩ := hd
    by_cases h : a = k
    · subst h; simp [alGet, alApp, hne.symm]
    · by_cases h' : a = k' <;> simp [alGet, alApp, h, h', hne, ih]

theorem alGet_append {α β : Type} [DecidableEq α] (l₁ l₂ : List (α × β)) (k : α) :
    alGet (l₁ ++ l₂) k = (alGet l₁ k).orElse (fun _ => alGet l₂ k) := by
  induction l₁ with
  | nil => simp [alGet]
  | cons hd t ih =>
    obtain ⟨a, b⟩ := hd
    by_cases h : a = k <;> simp [alGet, h, ih, Option.orElse]

theorem alGet_eq_none_iff {α β : Type} [DecidableEq α] (l : List (α × β)) (k : α) :
    alGet l k = none ↔ k ∉ l.map Prod.fst := by
  induction l with
  | nil => simp [alGet]
  | cons hd t ih =>
    obtain ⟨a, b⟩ := hd
    by_cases h : a = k
    · subst h; simp [alGet]
    · simp only [alGet, if_neg h, List.map_cons, List.mem_cons, ih]
      constructor
      · intro hk hor
        rcases hor with h2 | h2
        · exact h h2.symm
        · exact hk h2
      · exact fun hk hm => hk (Or.inr hm)

theorem mem_keys_of_alGet {α β : Type} [DecidableEq α] {l : List (α × β)} {k : α} {v : β}
    (hget : alGet l k = some v) : k ∈ l.map Prod.fst := by
  by_contra hmem
  rw [← alGet_eq_none_iff] at hmem
  rw [hmem] at hget
  exact Option.noConfusion hget

theorem mem_of_alGet {α β : Type} [DecidableEq α] {l : List (α × β)} {k : α} {v : β}
    (hget : alGet l k = some v) : (k, v) ∈ l := by
  induction l with
  | nil => simp [alGet] at hget
  | cons hd t ih =>
    obtain ⟨a, b⟩ := hd
    by_cases h : a = k
    · subst h
      simp [alGet] at hget
      simp [hget]
    · simp [alGet, h] at hget
      exact List.mem_cons_of_mem _ (ih hget)

theorem alGet_of_mem_of_nodup {α β : Type} [DecidableEq α] {l : List (α × β)} {k : α} {v : β}
    (hmem : (k, v) ∈ l) (hnd : keysNodup l) : alGet l k = some v := by
  induction l with
  | nil => simp at hmem
  | cons hd t ih =>
    obtain ⟨a, b⟩ := hd
    simp only [keysNodup, List.map_cons, List.nodup_cons] at hnd
    rcases List.mem_cons.1 hmem with heq | htl
    · obtain ⟨rfl, rfl⟩ := Prod.mk.injEq .. ▸ heq
      simp [alGet]
    · have hk : a ≠ k := by
        intro hak
        exact hnd.1 (hak ▸ List.mem_map_of_mem Prod.fst htl)
      simp [alGet, hk]
      exact ih htl hnd.2

theorem alGet_ne_of_not_mem_keys {α β : Type} [DecidableEq α] {l : List (α × β)} {k : α}
    (hmem : k ∉ l.map Prod.fst) : alGet l k = none :=
  (alGet_eq_none_iff l k).2 hmem

theorem alSet_eq_append_of_not_mem {α β : Type} [DecidableEq α] {l : List (α × β)} {k : α}
    (v : β) (hmem : alGet l k = none) : alSet l k v = l ++ [(k, v)] := by
  induction l with
  | nil => simp [alSet]
  | cons hd t ih =>
    obtain ⟨a, b⟩ := hd
    by_cases h : a = k
    · simp [alGet, h] at hmem
    · simp [alGet, h] at hmem
      simp [alSet, h, ih hmem]

theorem keysNodup_alSet {α β : Type} [DecidableEq α] (l : List (α × β)) (k : α) (v : β)
    (hnd : keysNodup l) : keysNodup (alSet l k v) := by
  induction l with
  | nil => simp [alSet, keysNodup]
  | cons hd t ih =>
    obtain ⟨a, b⟩ := hd
    simp only [keysNodup, List.map_cons, List.nodup_cons] at hnd
    by_cases h : a = k
    · subst h
      simpa [alSet, keysNodup] using hnd
    · have htail := ih hnd.2
      have hkeys : (alSet t k v).map Prod.fst = t.map Prod.fst ∨
          (alSet t k v).map Prod.fst = t.map Prod.fst ++ [k] := by
        clear hnd htail ih
        induction t with
        | nil => simp [alSet]
        | cons hd2 t2 ih2 =>
          obtain ⟨c, d⟩ := hd2
          by_cases h2 : c = k
          · left; simp [alSet, h2]
          · rcases ih2 with h3 | h3 <;> simp [alSet, h2, h3]
      simp only [alSet, if_neg h, keysNodup, List.map_cons, List.nodup_cons]
      refine ⟨?_, htail⟩
      rcases hkeys with h3 | h3 <;> rw [h3]
      · exact hnd.1
      · simp [hnd.1, h]

theorem keysNodup_alApp {α β : Type} [DecidableEq α] (l : List (α × List β)) (k : α) (x : β)
    (hnd : keysNodup l) : keysNodup (alApp l k x) := by
  induction l with
  | nil => simp [alApp, keysNodup]
  | cons hd t ih =>
    obtain ⟨a, b⟩ := hd
    simp only [keysNodup, List.map_cons, List.nodup_cons] at hnd
    by_cases h : a = k
    · subst h
      simpa [alApp, keysNodup] using hnd
    · have htail := ih hnd.2
      have hkeys : (alApp t k x).map Prod.fst = t.map Prod.fst ∨
          (alApp t k x).map Prod.fst = t.map Prod.fst ++ [k] := by
        clear hnd htail ih
        induction t with
        | nil => simp [alApp]
        | cons hd2 t2 ih2 =>
          obtain ⟨c, d⟩ := hd2
          by_cases h2 : c = k
          · left; simp [alApp, h2]
          · rcases ih2 with h3 | h3 <;> simp [alApp, h2, h3]
      simp only [alApp, if_neg h, keysNodup, List.map_cons, List.nodup_cons]
      refine ⟨?_, htail⟩
      rcases hkeys with h3 | h3 <;> rw [h3]
      · exact hnd.1
      · simp [hnd.1, h]

theorem mem_alApp_snd_ne_nil {α β : Type} [DecidableEq α] {l : List (α × List β)} {k : α}
    {x : β} (hall : ∀ e ∈ l, e.2 ≠ []) : ∀ e ∈ alApp l k x, e.2 ≠ [] := by
  induction l with
  | nil =>
    intro e he
    simp [alApp] at he
    simp [he]
  | cons hd t ih =>
    obtain ⟨a, b⟩ := hd
    intro e he
    by_cases h : a = k
    · subst h
      simp only [alApp, if_pos rfl] at he
      rcases List.mem_cons.1 he with rfl | htl
      · simp
      · exact hall e (List.mem_cons_of_mem _ htl)
    · simp only [alApp, if_neg h] at he
      rcases List.mem_cons.1 he with rfl | htl
      · exact hall _ (List.mem_cons_self _ _)
      · exact ih (fun e2 he2 => hall e2 (List.mem_cons_of_mem _ he2)) e htl

/-! ## Views of nested dicts and their append lemmas -/

/-- Append a (possibly empty) batch of values at a get-or-create optional
list: `appOpt o adds` is `o` when nothing is appended, otherwise the old
list (created empty) extended with `adds`. -/
def appOpt {γ : Type} (o : Option (List γ)) (adds : List γ) : Option (List γ) :=
  match adds with
  | [] => o
  | _ :: _ => some (o.getD [] ++ adds)

theorem appOpt_nil {γ : Type} (o : Option (List γ)) : appOpt o [] = o := rfl

theorem appOpt_append {γ : Type} (o : Option (List γ)) (a b : List γ) :
    appOpt (appOpt o a) b = appOpt o (a ++ b) := by
  cases a with
  | nil => simp [appOpt]
  | cons x xs =>
    cases b with
    | nil => simp [appOpt]
    | cons y ys => simp [appOpt, List.append_assoc]

/-- Position list stored for `(word, doc)` in one shard's mapping, with both
missing-word and missing-doc collapsing to `none`. -/
def postGet (ix : List (String × List (Int × List Nat))) (w : String) (d : Int) :
    Option (List Nat) :=
  alGet ((alGet ix w).getD []) d

/-- Occurrence list buffered for `(shard, word)` in the collect phase. -/
def bufGet (b : ShardBuffer) (sid : Nat) (w : String) : List (Int × Nat) :=
  (alGet ((alGet b sid).getD []) w).getD []

theorem alGet_postApp_self (ix : List (String × List (Int × List Nat))) (w : String)
    (d : Int) (p : Nat) :
    alGet (postApp ix w d p) w = some (alApp ((alGet ix w).getD []) d p) := by
  induction ix with
  | nil => simp [alGet, postApp, alApp]
  | cons hd t ih =>
    obtain ⟨a, b⟩ := hd
    by_cases h : a = w <;> simp [alGet, postApp, h, ih]

theorem alGet_postApp_ne (ix : List (String × List (Int × List Nat))) (w w' : String)
    (d : Int) (p : Nat) (hne : w' ≠ w) :
    alGet (postApp ix w d p) w' = alGet ix w' := by
  induction ix with
  | nil => simp [alGet, postApp, hne.symm]
  | cons hd t ih =>
    obtain ⟨a, b⟩ := hd
    by_cases h : a = w
    · subst h; simp [alGet, postApp, hne.symm]
    · by_cases h' : a = w' <;> simp [alGet, postApp, h, h', hne, ih]

theorem postGet_postApp (ix : List (String × List (Int × List Nat))) (w w' : String)
    (d d' : Int) (p : Nat) :
    postGet (postApp ix w d p) w' d' =
      if w' = w ∧ d' = d then appOpt (postGet ix w' d') [p] else postGet ix w' d' := by
  by_cases hw : w' = w
  · subst hw
    rw [postGet, alGet_postApp_self]
    by_cases hd : d' = d
    · subst hd
      simp [postGet, appOpt, alGet_alApp_self]
    · simp [postGet, hd, alGet_alApp_ne _ _ _ _ hd]
  · simp [postGet, hw, alGet_postApp_ne _ _ _ _ _ hw]

theorem alGet_bufApp_self (b : ShardBuffer) (sid : Nat) (w : String) (occ : Int × Nat) :
    alGet (bufApp b sid w occ) sid = some (alApp ((alGet b sid).getD []) w occ) := by
  induction b with
  | nil => simp [alGet, bufApp, alApp]
  | cons hd t ih =>
    obtain ⟨a, wd⟩ := hd
    by_cases h : a = sid <;> simp [alGet, bufApp, h, ih]

theorem alGet_bufApp_ne (b : ShardBuffer) (sid sid' : Nat) (w : String) (occ : Int × Nat)
    (hne : sid' ≠ sid) : alGet (bufApp b sid w occ) sid' = alGet b sid' := by
  induction b with
  | nil => simp [alGet, bufApp, hne.symm]
  | cons hd t ih =>
    obtain ⟨a, wd⟩ := hd
    by_cases h : a = sid
    · subst h; simp [alGet, bufApp, hne.symm]
    · by_cases h' : a = sid' <;> simp [alGet, bufApp, h, h', hne, ih]

theorem bufGet_bufApp (b : ShardBuffer) (sid sid' : Nat) (w w' : String) (occ : Int × Nat) :
    bufGet (bufApp b sid w occ) sid' w' =
      bufGet b sid' w' ++ (if sid' = sid ∧ w' = w then [occ] else []) := by
  by_cases hs : sid' = sid
  · subst hs
    rw [bufGet, alGet_bufApp_self]
    by_cases hw : w' = w
    · subst hw
      simp [bufGet, alGet_alApp_self]
    · simp [bufGet, hw, alGet_alApp_ne _ _ _ _ hw]
  · simp [bufGet, hs, alGet_bufApp_ne _ _ _ _ _ hs]

/-- Entry keys of `alApp` come from the original dict or are the appended key. -/
theorem alApp_mem_keys {α β : Type} [DecidableEq α] {l : List (α × List β)} {k : α} {x : β} :
    ∀ e ∈ alApp l k x, e.1 = k ∨ e.1 ∈ l.map Prod.fst := by
  induction l with
  | nil =>
    intro e he
    simp [alApp] at he
    simp [he]
  | cons hd t ih =>
    obtain ⟨a, b⟩ := hd
    intro e he
    by_cases h : a = k
    · subst h
      simp only [alApp, if_pos rfl] at he
      rcases List.mem_cons.1 he with rfl | htl
      · simp
      · right; exact List.mem_map_of_mem Prod.fst (List.mem_cons_of_mem _ htl)
    · simp only [alApp, if_neg h] at he
      rcases List.mem_cons.1 he with rfl | htl
      · right; simp
      · rcases ih e htl with h2 | h2
        · exact Or.inl h2
        · right; simp only [List.map_cons, List.mem_cons]; exact Or.inr h2

/-- Same fact for the outer (shard-id) level of the buffer. -/
theorem bufApp_mem_keys {b : ShardBuffer} {sid : Nat} {w : String} {occ : Int × Nat} :
    ∀ e ∈ bufApp b sid w occ, e.1 = sid ∨ e.1 ∈ b.map Prod.fst := by
  induction b with
  | nil =>
    intro e he
    simp [bufApp] at he
    simp [he]
  | cons hd t ih =>
    obtain ⟨a, wd⟩ := hd
    intro e he
    by_cases h : a = sid
    · subst h
      simp only [bufApp, if_pos rfl] at he
      rcases List.mem_cons.1 he with rfl | htl
      · simp
      · right; exact List.mem_map_of_mem Prod.fst (List.mem_cons_of_mem _ htl)
    · simp only [bufApp, if_neg h] at he
      rcases List.mem_cons.1 he with rfl | htl
      · right; simp
      · rcases ih e htl with h2 | h2
        · exact Or.inl h2
        · right; simp only [List.map_cons, List.mem_cons]; exact Or.inr h2

/-- Values of `alApp` entries: each entry either was in the dict, or is the
appended key bound to its (possibly extended) list. -/
theorem alApp_mem_entry {α β : Type} [DecidableEq α] {l : List (α × List β)} {k : α} {x : β} :
    ∀ e ∈ alApp l k x, e ∈ l ∨ e.1 = k := by
  induction l with
  | nil =>
    intro e he
    simp [alApp] at he
    simp [he]
  | cons hd t ih =>
    obtain ⟨a, b⟩ := hd
    intro e he
    by_cases h : a = k
    · subst h
      simp only [alApp, if_pos rfl] at he
      rcases List.mem_cons.1 he with rfl | htl
      · simp
      · exact Or.inl (List.mem_cons_of_mem _ htl)
    · simp only [alApp, if_neg h] at he
      rcases List.mem_cons.1 he with rfl | htl
      · exact Or.inl (List.mem_cons_self _ _)
      · rcases ih e htl with h2 | h2
        · exact Or.inl (List.mem_cons_of_mem _ h2)
        · exact Or.inr h2

/-! ## Reference views of ingestion -/

/-- Token positions at which `w` occurs in a token list, in order: the
sequence of appends the collect phase performs for `(w, doc)`. -/
def occIdx (w : String) (ts : List String) : List Nat :=
  (ts.enum.filter fun pw => decide (pw.2 = w)).map Prod.fst

/-- All positions a batch appends for `(w, d)`, in batch order: documents
are scanned in order, and the doc with id `d` contributes the occurrence
positions of `w` in its token list. -/
def occAdds (docs : List (Int × String)) (w : String) (d : Int) : List Nat :=
  docs.flatMap fun dc => if dc.1 = d then occIdx w (preprocess_text dc.2) else []

/-- Position list stored in the state for `(w, d)`, through the routing
function (missing word or doc is `none`). -/
def posOf (h : String → Nat) (s : InvertedIndex) (w : String) (d : Int) :
    Option (List Nat) :=
  postGet (getShard h s w).index w d

/-- Posting view of the shard list at a raw shard position. -/
def viewPost (shs : List IndexShard) (i : Nat) (w : String) (d : Int) : Option (List Nat) :=
  postGet (shs.getD i { index := [], is_dirty := false }).index w d

/-! ## Collect-phase characterization -/

theorem bufGet_occFold (h : String → Nat) (n : Nat) (d : Int) (L : List (Nat × String))
    (b : ShardBuffer) (sid : Nat) (w : String) :
    bufGet (L.foldl (fun b2 pw => bufApp b2 (shardIdFor h n pw.2) pw.2 (d, pw.1)) b) sid w
      = bufGet b sid w ++
        (if shardIdFor h n w = sid
          then (L.filter fun pw => decide (pw.2 = w)).map fun pw => (d, pw.1)
          else []) := by
  induction L generalizing b with
  | nil => by_cases hc : shardIdFor h n w = sid <;> simp [hc]
  | cons pw L2 ih =>
    rw [List.foldl_cons, ih]
    rw [bufGet_bufApp]
    by_cases hw : pw.2 = w
    · subst hw
      by_cases hsid : shardIdFor h n pw.2 = sid
      · simp [hsid, List.append_assoc]
      · have hsid2 : ¬sid = shardIdFor h n pw.2 := fun hh => hsid hh.symm
        simp [hsid, hsid2]
    · have hww : ¬w = pw.2 := fun hh => hw hh.symm
      by_cases hsid : sid = shardIdFor h n pw.2 <;>
        simp [hsid, hw, hww, List.append_assoc]

theorem bufGet_collectDoc (h : String → Nat) (n : Nat) (d : Int) (ws : List String)
    (b : ShardBuffer) (sid : Nat) (w : String) :
    bufGet (collectDoc h n d ws b) sid w
      = bufGet b sid w ++
        (if shardIdFor h n w = sid then (occIdx w ws).map fun p => (d, p) else []) := by
  rw [collectDoc, bufGet_occFold]
  by_cases hc : shardIdFor h n w = sid <;> simp [hc, occIdx, List.map_map, Function.comp]

/-- The paired collect fold splits into its buffer and length components. -/
theorem collect_fold_split (h : String → Nat) (n : Nat) (docs : List (Int × String))
    (b0 : ShardBuffer) (dl0 : List (Int × Nat)) :
    docs.foldl
        (fun (acc : ShardBuffer × List (Int × Nat)) (dc : Int × String) =>
          let ws := preprocess_text dc.2
          (collectDoc h n dc.1 ws acc.1, alSet acc.2 dc.1 ws.length))
        (b0, dl0)
      = (docs.foldl (fun b dc => collectDoc h n dc.1 (preprocess_text dc.2) b) b0,
         docs.foldl (fun dl dc => alSet dl dc.1 (preprocess_text dc.2).length) dl0) := by
  induction docs generalizing b0 dl0 with
  | nil => rfl
  | cons dc docs2 ih => simp only [List.foldl_cons]; exact ih _ _

theorem bufGet_collectBatch (h : String → Nat) (n : Nat) (docs : List (Int × String))
    (b0 : ShardBuffer) (sid : Nat) (w : String) :
    bufGet (docs.foldl (fun b dc => collectDoc h n dc.1 (preprocess_text dc.2) b) b0) sid w
      = bufGet b0 sid w ++
        (if shardIdFor h n w = sid
          then docs.flatMap fun dc => (occIdx w (preprocess_text dc.2)).map fun p => (dc.1, p)
          else []) := by
  induction docs generalizing b0 with
  | nil => by_cases hc : shardIdFor h n w = sid <;> simp [hc]
  | cons dc docs2 ih =>
    rw [List.foldl_cons, ih, bufGet_collectDoc]
    by_cases hc : shardIdFor h n w = sid <;> simp [hc, List.append_assoc]

theorem alGet_lenFold (docs : List (Int × String)) (dl0 : List (Int × Nat)) (d : Int)
    (hnd : keysNodup docs) :
    alGet (docs.foldl (fun dl dc => alSet dl dc.1 (preprocess_text dc.2).length) dl0) d
      = match alGet docs d with
        | some c => some (preprocess_text c).length
        | none => alGet dl0 d := by
  induction docs generalizing dl0 with
  | nil => simp [alGet]
  | cons dc docs2 ih =>
    obtain ⟨a, c⟩ := dc
    simp only [keysNodup, List.map_cons, List.nodup_cons] at hnd
    rw [List.foldl_cons, ih _ hnd.2]
    by_cases hda : a = d
    · subst hda
      have hnone : alGet docs2 a = none :=
        (alGet_eq_none_iff _ _).2 hnd.1
      simp [alGet, hnone, alGet_alSet_self]
    · have hne : d ≠ a := fun hh => hda hh.symm
      cases hget : alGet docs2 d with
      | none => simp [alGet, hda, hget, alGet_alSet_ne _ _ _ _ hne]
      | some c2 => simp [alGet, hda, hget]

/-! ## Apply-phase characterization -/

/-- Positions a buffered `(word, occurrences)` entry contributes to `(w, d)`. -/
def entryAdds (wd : List (String × List (Int × Nat))) (w : String) (d : Int) : List Nat :=
  wd.flatMap fun wo =>
    if wo.1 = w then (wo.2.filter fun dp => decide (dp.1 = d)).map Prod.snd else []

theorem postGet_occFold (ix : List (String × List (Int × List Nat))) (w1 : String)
    (occs : List (Int × Nat)) (w : String) (d : Int) :
    postGet (occs.foldl (fun ix2 dp => postApp ix2 w1 dp.1 dp.2) ix) w d
      = appOpt (postGet ix w d)
          (if w1 = w then (occs.filter fun dp => decide (dp.1 = d)).map Prod.snd else []) := by
  induction occs generalizing ix with
  | nil => by_cases hw : w1 = w <;> simp [hw, appOpt_nil]
  | cons dp occs2 ih =>
    rw [List.foldl_cons, ih, postGet_postApp]
    by_cases hw : w1 = w
    · subst hw
      by_cases hd : dp.1 = d
      · subst hd
        simp [appOpt_append]
      · have hd2 : ¬d = dp.1 := fun hh => hd hh.symm
        simp [hd, hd2]
    · have hw2 : ¬w = w1 := fun hh => hw hh.symm
      simp [hw, hw2]

theorem postGet_updateShard (sh : IndexShard) (wd : List (String × List (Int × Nat)))
    (w : String) (d : Int) :
    postGet (updateShard sh wd).index w d
      = appOpt (postGet sh.index w d) (entryAdds wd w d) := by
  show postGet (wd.foldl _ sh.index) w d = _
  generalize sh.index = ix
  induction wd generalizing ix with
  | nil => simp [entryAdds, appOpt_nil]
  | cons wo wd2 ih =>
    rw [List.foldl_cons, ih, postGet_occFold]
    have : entryAdds (wo :: wd2) w d
        = (if wo.1 = w then (wo.2.filter fun dp => decide (dp.1 = d)).map Prod.snd else [])
          ++ entryAdds wd2 w d := by
      simp [entryAdds]
    rw [this, appOpt_append]

theorem viewPost_applyToShards_ne (shs : List IndexShard)
    (e : Nat × List (String × List (Int × Nat))) (i : Nat) (w : String) (d : Int)
    (hne : e.1 ≠ i) : viewPost (applyToShards shs e) i w d = viewPost shs i w d := by
  unfold applyToShards
  cases hget : shs.get? e.1 with
  | none => rfl
  | some sh =>
    unfold viewPost
    rw [List.getD_eq_getElem?_getD, List.getD_eq_getElem?_getD,
      List.getElem?_set_ne hne]

theorem viewPost_applyToShards_self (shs : List IndexShard)
    (e : Nat × List (String × List (Int × Nat))) (w : String) (d : Int)
    (hlt : e.1 < shs.length) :
    viewPost (applyToShards shs e) e.1 w d
      = appOpt (viewPost shs e.1 w d) (entryAdds e.2 w d) := by
  unfold applyToShards
  have hget : shs.get? e.1 = some shs[e.1] := by
    rw [List.get?_eq_getElem?, List.getElem?_eq_getElem hlt]
  rw [hget]
  unfold viewPost
  rw [List.getD_eq_getElem?_getD, List.getElem?_set_self hlt,
    List.getD_eq_getElem?_getD, List.getElem?_eq_getElem hlt]
  exact postGet_updateShard _ _ _ _

theorem applyToShards_length (shs : List IndexShard)
    (e : Nat × List (String × List (Int × Nat))) :
    (applyToShards shs e).length = shs.length := by
  unfold applyToShards
  cases shs.get? e.1 <;> simp

theorem viewPost_applyFold (buf : ShardBuffer) (shs : List IndexShard) (i : Nat)
    (w : String) (d : Int) (hall : ∀ e ∈ buf, e.1 < shs.length) :
    viewPost (buf.foldl applyToShards shs) i w d
      = appOpt (viewPost shs i w d)
          (buf.flatMap fun e => if e.1 = i then entryAdds e.2 w d else []) := by
  induction buf generalizing shs with
  | nil => simp [appOpt_nil]
  | cons e buf2 ih =>
    rw [List.foldl_cons]
    have hall2 : ∀ e2 ∈ buf2, e2.1 < (applyToShards shs e).length := by
      intro e2 he2
      rw [applyToShards_length]
      exact hall e2 (List.mem_cons_of_mem _ he2)
    rw [ih _ hall2]
    by_cases hi : e.1 = i
    · subst hi
      rw [viewPost_applyToShards_self shs e w d (hall e (List.mem_cons_self _ _))]
      rw [appOpt_append]
      simp
    · rw [viewPost_applyToShards_ne shs e i w d hi]
      simp [hi]

/-- Collapse a guarded flat-map over a nodup-keyed dict to the lookup of the
single matching entry. -/
theorem flatMap_guard_eq_alGet {α β γ : Type} [DecidableEq α] (l : List (α × β)) (k : α)
    (g : β → List γ) (hnd : keysNodup l) :
    (l.flatMap fun e => if e.1 = k then g e.2 else []) = ((alGet l k).map g).getD [] := by
  induction l with
  | nil => simp [alGet]
  | cons e l2 ih =>
    obtain ⟨a, b⟩ := e
    simp only [keysNodup, List.map_cons, List.nodup_cons] at hnd
    by_cases hk : a = k
    · subst hk
      have hrest : (l2.flatMap fun e => if e.1 = a then g e.2 else []) = [] := by
        apply List.flatMap_eq_nil_iff.2
        intro e2 he2
        have : e2.1 ≠ a := by
          intro hh
          exact hnd.1 (hh ▸ List.mem_map_of_mem Prod.fst he2)
        simp [this]
      simp [List.flatMap_cons, hrest, alGet]
    · simp [List.flatMap_cons, hk, ih hnd.2, alGet]

/-! ## Buffer invariants through the collect phase -/

theorem keysNodup_bufApp (b : ShardBuffer) (sid : Nat) (w : String) (occ : Int × Nat)
    (hnd : keysNodup b) : keysNodup (bufApp b sid w occ) := by
  induction b with
  | nil => simp [bufApp, keysNodup]
  | cons hd t ih =>
    obtain ⟨a, wd⟩ := hd
    simp only [keysNodup, List.map_cons, List.nodup_cons] at hnd
    by_cases h : a = sid
    · subst h
      simpa [bufApp, keysNodup] using hnd
    · have htail := ih hnd.2
      have hkeys : (bufApp t sid w occ).map Prod.fst = t.map Prod.fst ∨
          (bufApp t sid w occ).map Prod.fst = t.map Prod.fst ++ [sid] := by
        clear hnd htail ih
        induction t with
        | nil => simp [bufApp]
        | cons hd2 t2 ih2 =>
          obtain ⟨c, wd2⟩ := hd2
          by_cases h2 : c = sid
          · left; simp [bufApp, h2]
          · rcases ih2 with h3 | h3 <;> simp [bufApp, h2, h3]
      simp only [bufApp, if_neg h, keysNodup, List.map_cons, List.nodup_cons]
      refine ⟨?_, htail⟩
      rcases hkeys with h3 | h3 <;> rw [h3]
      · exact hnd.1
      · simp [hnd.1, h]

/-- Entries of `bufApp` are old entries, or carry the appended shard id. -/
theorem bufApp_mem_entry {b : ShardBuffer} {sid : Nat} {w : String} {occ : Int × Nat} :
    ∀ e ∈ bufApp b sid w occ,
      e ∈ b ∨ (e.1 = sid ∧ ∀ wo ∈ e.2, wo ∈ (alGet b sid).getD [] ∨ wo.1 = w) := by
  induction b with
  | nil =>
    intro e he
    simp [bufApp] at he
    subst he
    right
    refine ⟨rfl, ?_⟩
    intro wo hwo
    simp [alGet] at hwo ⊢
    simp [hwo]
  | cons hd t ih =>
    obtain ⟨a, wd⟩ := hd
    intro e he
    by_cases h : a = sid
    · subst h
      simp only [bufApp, if_pos rfl] at he
      rcases List.mem_cons.1 he with rfl | htl
      · right
        refine ⟨rfl, ?_⟩
        intro wo hwo
        rcases alApp_mem_entry wo hwo with h2 | h2
        · left; simpa [alGet] using h2
        · right; exact h2
      · exact Or.inl (List.mem_cons_of_mem _ htl)
    · simp only [bufApp, if_neg h] at he
      rcases List.mem_cons.1 he with rfl | htl
      · exact Or.inl (List.mem_cons_self _ _)
      · rcases ih e htl with h2 | h2
        · exact Or.inl (List.mem_cons_of_mem _ h2)
        · right
          refine ⟨h2.1, ?_⟩
          intro wo hwo
          rcases h2.2 wo hwo with h3 | h3
          · left
            have hne : a ≠ sid := h
            simpa [alGet, fun hh => h hh] using h3
          · exact Or.inr h3

/-- Invariant bundle maintained for the collect buffer: shard keys distinct
and below the shard count, inner word dicts nodup-keyed, and every buffered
word routed to its own shard id. -/
def BufWF (h : String → Nat) (n : Nat) (b : ShardBuffer) : Prop :=
  keysNodup b ∧
  (∀ e ∈ b, e.1 < n) ∧
  (∀ e ∈ b, keysNodup e.2) ∧
  (∀ e ∈ b, ∀ wo ∈ e.2, shardIdFor h n wo.1 = e.1)

theorem bufApp_inner_nodup (b : ShardBuffer) (sid : Nat) (w : String) (occ : Int × Nat)
    (hinner : ∀ e ∈ b, keysNodup e.2) : ∀ e ∈ bufApp b sid w occ, keysNodup e.2 := by
  induction b with
  | nil =>
    intro e he
    simp [bufApp] at he
    subst he
    simp [keysNodup]
  | cons hd t ih =>
    obtain ⟨a, wd⟩ := hd
    intro e he
    by_cases h : a = sid
    · subst h
      simp only [bufApp, if_pos rfl] at he
      rcases List.mem_cons.1 he with rfl | htl
      · exact keysNodup_alApp _ _ _ (hinner _ (List.mem_cons_self _ _))
      · exact hinner e (List.mem_cons_of_mem _ htl)
    · simp only [bufApp, if_neg h] at he
      rcases List.mem_cons.1 he with rfl | htl
      · exact hinner _ (List.mem_cons_self _ _)
      · exact ih (fun e2 he2 => hinner e2 (List.mem_cons_of_mem _ he2)) e htl

theorem bufWF_bufApp (h : String → Nat) (n : Nat) (b : ShardBuffer) (w : String)
    (occ : Int × Nat) (hn : shardIdFor h n w < n) (hwf : BufWF h n b) :
    BufWF h n (bufApp b (shardIdFor h n w) w occ) := by
  obtain ⟨hnd, hlt, hinner, hroute⟩ := hwf
  refine ⟨keysNodup_bufApp _ _ _ _ hnd, ?_, bufApp_inner_nodup _ _ _ _ hinner, ?_⟩
  · intro e he
    rcases bufApp_mem_keys e he with h2 | h2
    · rw [h2]; exact hn
    · obtain ⟨⟨a, wd⟩, hm, hfst⟩ := List.mem_map.1 h2
      exact hfst ▸ hlt _ hm
  · intro e he wo hwo
    rcases bufApp_mem_entry e he with h2 | h2
    · exact hroute e h2 wo hwo
    · rcases h2.2 wo hwo with h3 | h3
      · cases hget : alGet b (shardIdFor h n w) with
        | none => rw [hget] at h3; simp at h3
        | some wd0 =>
          rw [hget] at h3
          have hmem : (shardIdFor h n w, wd0) ∈ b := mem_of_alGet hget
          rw [h2.1]
          exact hroute _ hmem wo h3
      · rw [h2.1, h3]

theorem bufWF_occFold (h : String → Nat) (n : Nat) (d : Int) (L : List (Nat × String))
    (b : ShardBuffer) (hn : 0 < n) (hwf : BufWF h n b) :
    BufWF h n (L.foldl (fun b2 pw => bufApp b2 (shardIdFor h n pw.2) pw.2 (d, pw.1)) b) := by
  induction L generalizing b with
  | nil => exact hwf
  | cons pw L2 ih =>
    rw [List.foldl_cons]
    exact ih _ (bufWF_bufApp h n b pw.2 (d, pw.1) (Nat.mod_lt _ hn) hwf)

theorem bufWF_collectDoc (h : String → Nat) (n : Nat) (d : Int) (ws : List String)
    (b : ShardBuffer) (hn : 0 < n) (hwf : BufWF h n b) :
    BufWF h n (collectDoc h n d ws b) :=
  bufWF_occFold h n d ws.enum b hn hwf

theorem bufWF_collectBatch (h : String → Nat) (n : Nat) (docs : List (Int × String))
    (b0 : ShardBuffer) (hn : 0 < n) (hwf : BufWF h n b0) :
    BufWF h n (docs.foldl (fun b dc => collectDoc h n dc.1 (preprocess_text dc.2) b) b0) := by
  induction docs generalizing b0 with
  | nil => exact hwf
  | cons dc docs2 ih =>
    rw [List.foldl_cons]
    exact ih _ (bufWF_collectDoc h n dc.1 _ b0 hn hwf)

theorem bufWF_nil (h : String → Nat) (n : Nat) : BufWF h n [] := by
  refine ⟨?_, ?_, ?_, ?_⟩ <;> simp [keysNodup]

/-! ## Per-batch effect of `_process_document_batch` -/

theorem processBatch_num_shards (h : String → Nat) (s : InvertedIndex)
    (docs : List (Int × String)) : (processBatch h s docs).num_shards = s.num_shards := rfl

theorem processBatch_total_docs (h : String → Nat) (s : InvertedIndex)
    (docs : List (Int × String)) : (processBatch h s docs).total_docs = s.total_docs := rfl

theorem processBatch_doc_lengths (h : String → Nat) (s : InvertedIndex)
    (docs : List (Int × String)) :
    (processBatch h s docs).doc_lengths
      = docs.foldl (fun dl dc => alSet dl dc.1 (preprocess_text dc.2).length) s.doc_lengths := by
  simp only [processBatch]
  rw [collect_fold_split]

theorem processBatch_shards (h : String → Nat) (s : InvertedIndex)
    (docs : List (Int × String)) :
    (processBatch h s docs).shards
      = (docs.foldl (fun b dc => collectDoc h s.num_shards dc.1 (preprocess_text dc.2) b)
          []).foldl applyToShards s.shards := by
  simp only [processBatch]
  rw [collect_fold_split]

theorem foldl_applyToShards_length (buf : ShardBuffer) (shs : List IndexShard) :
    (buf.foldl applyToShards shs).length = shs.length := by
  induction buf generalizing shs with
  | nil => rfl
  | cons e buf2 ih => rw [List.foldl_cons, ih, applyToShards_length]

theorem processBatch_shards_length (h : String → Nat) (s : InvertedIndex)
    (docs : List (Int × String)) :
    (processBatch h s docs).shards.length = s.shards.length := by
  rw [processBatch_shards, foldl_applyToShards_length]

theorem filterDoc_occPairs (docs : List (Int × String)) (w : String) (d : Int) :
    ((docs.flatMap fun dc => (occIdx w (preprocess_text dc.2)).map fun p => (dc.1, p)).filter
        fun dp => decide (dp.1 = d)).map Prod.snd = occAdds docs w d := by
  induction docs with
  | nil => simp [occAdds]
  | cons dc docs2 ih =>
    rw [List.flatMap_cons, List.filter_append, List.map_append, ih]
    have hhead : (((occIdx w (preprocess_text dc.2)).map fun p => (dc.1, p)).filter
          fun dp => decide (dp.1 = d)).map Prod.snd
        = if dc.1 = d then occIdx w (preprocess_text dc.2) else [] := by
      rw [List.filter_map]
      by_cases hd : dc.1 = d
      · simp [hd, Function.comp, List.map_map]
      · simp [hd, Function.comp]
    rw [hhead]
    simp [occAdds]

theorem processBatch_posOf (h : String → Nat) (s : InvertedIndex)
    (docs : List (Int × String)) (w : String) (d : Int)
    (hlen : s.shards.length = s.num_shards) (hn : 0 < s.num_shards) :
    posOf h (processBatch h s docs) w d = appOpt (posOf h s w d) (occAdds docs w d) := by
  have hwf : BufWF h s.num_shards
      (docs.foldl (fun b dc => collectDoc h s.num_shards dc.1 (preprocess_text dc.2) b) []) :=
    bufWF_collectBatch h s.num_shards docs [] hn (bufWF_nil h s.num_shards)
  set buf := docs.foldl (fun b dc => collectDoc h s.num_shards dc.1 (preprocess_text dc.2) b) []
    with hbuf
  set i := shardIdFor h s.num_shards w with hi
  have hview : posOf h (processBatch h s docs) w d
      = viewPost (buf.foldl applyToShards s.shards) i w d := by
    rw [posOf, getShard, processBatch_num_shards, viewPost, processBatch_shards, hbuf]
  rw [hview]
  have hall : ∀ e ∈ buf, e.1 < s.shards.length := by
    intro e he
    rw [hlen]
    exact hwf.2.1 e he
  rw [viewPost_applyFold buf s.shards i w d hall]
  have hbase : viewPost s.shards i w d = posOf h s w d := rfl
  rw [hbase]
  congr 1
  rw [flatMap_guard_eq_alGet buf i (fun wd => entryAdds wd w d) hwf.1]
  have hocc : bufGet buf i w
      = docs.flatMap fun dc => (occIdx w (preprocess_text dc.2)).map fun p => (dc.1, p) := by
    have := bufGet_collectBatch h s.num_shards docs [] i w
    rw [← hbuf] at this
    rw [this]
    have hnil : bufGet [] i w = [] := rfl
    rw [hnil, if_pos hi.symm, List.nil_append]
  cases hget : alGet buf i with
  | none =>
    have hbufget : bufGet buf i w = [] := by
      rw [bufGet, hget]
      rfl
    rw [hbufget] at hocc
    rw [← filterDoc_occPairs docs w d, ← hocc]
    simp
  | some wd =>
    have hndwd : keysNodup wd := hwf.2.2.1 _ (mem_of_alGet hget)
    have hbufget : bufGet buf i w = (alGet wd w).getD [] := by
      rw [bufGet, hget]
      rfl
    show entryAdds wd w d = occAdds docs w d
    rw [entryAdds, flatMap_guard_eq_alGet wd w
      (fun occs => (occs.filter fun dp => decide (dp.1 = d)).map Prod.snd) hndwd]
    rw [← filterDoc_occPairs docs w d, ← hocc, hbufget]
    cases hget2 : alGet wd w with
    | none => simp
    | some occs => simp

/-! ## Effect of a whole `add_documents` call -/

theorem addDocsAux_effect (h : String → Nat) (bs : Nat) (hbs : 0 < bs) :
    ∀ (fuel : Nat) (docs : List (Int × String)) (s : InvertedIndex),
      docs.length ≤ fuel → keysNodup docs →
      s.shards.length = s.num_shards → 0 < s.num_shards →
      (addDocsAux h bs fuel s docs).num_shards = s.num_shards ∧
      (addDocsAux h bs fuel s docs).shards.length = s.shards.length ∧
      (addDocsAux h bs fuel s docs).total_docs = s.total_docs + docs.length ∧
      (∀ w d, posOf h (addDocsAux h bs fuel s docs) w d
        = appOpt (posOf h s w d) (occAdds docs w d)) ∧
      (∀ d, alGet (addDocsAux h bs fuel s docs).doc_lengths d
        = match alGet docs d with
          | some c => some (preprocess_text c).length
          | none => alGet s.doc_lengths d) := by
  intro fuel
  induction fuel with
  | zero =>
    intro docs s hfuel hnd hlen hn
    have hdocs : docs = [] := List.length_eq_zero.1 (Nat.le_zero.1 hfuel)
    subst hdocs
    refine ⟨rfl, rfl, rfl, ?_, ?_⟩
    · intro w d
      simp [addDocsAux, occAdds, appOpt_nil]
    · intro d
      simp [addDocsAux, alGet]
  | succ fuel ih =>
    intro docs s hfuel hnd hlen hn
    cases docs with
    | nil =>
      refine ⟨rfl, rfl, rfl, ?_, ?_⟩
      · intro w d
        simp [addDocsAux, occAdds, appOpt_nil]
      · intro d
        simp [addDocsAux, alGet]
    | cons dc docs2 =>
      set docs := dc :: docs2 with hdocs
      have hstep : addDocsAux h bs (fuel + 1) s docs
          = addDocsAux h bs fuel
              { processBatch h s (docs.take bs) with
                total_docs := (processBatch h s (docs.take bs)).total_docs
                  + (docs.take bs).length }
              (docs.drop bs) := by
        rw [hdocs]
        rfl
      set batch := docs.take bs with hbatch
      set rest := docs.drop bs with hrest
      set s2 : InvertedIndex :=
        { processBatch h s batch with
          total_docs := (processBatch h s batch).total_docs + batch.length } with hs2
      have hsplit : batch ++ rest = docs := List.take_append_drop bs docs
      have hndboth : keysNodup batch ∧ keysNodup rest ∧
          (batch.map Prod.fst).Disjoint (rest.map Prod.fst) := by
        have : keysNodup (batch ++ rest) := by rw [hsplit]; exact hnd
        rw [keysNodup, List.map_append, List.nodup_append] at this
        exact this
      have hrestlen : rest.length ≤ fuel := by
        have h1 : docs.length ≤ fuel + 1 := hfuel
        have h2 : 1 ≤ docs.length := by rw [hdocs]; simp
        have h3 : rest.length = docs.length - bs := by rw [hrest, List.length_drop]
        omega
      have hs2num : s2.num_shards = s.num_shards := processBatch_num_shards h s batch
      have hs2len : s2.shards.length = s.shards.length := processBatch_shards_length h s batch
      have hs2eq : s2.shards.length = s2.num_shards := by rw [hs2len, hs2num, hlen]
      have hs2pos : 0 < s2.num_shards := by rw [hs2num]; exact hn
      obtain ⟨ihn, ihl, iht, ihp, ihd⟩ :=
        ih rest s2 hrestlen hndboth.2.1 hs2eq hs2pos
      rw [hstep]
      refine ⟨?_, ?_, ?_, ?_, ?_⟩
      · rw [ihn, hs2num]
      · rw [ihl, hs2len]
      · rw [iht]
        have hlensum : batch.length + rest.length = docs.length := by
          have := congrArg List.length hsplit
          rw [List.length_append] at this
          exact this
        have hs2total : s2.total_docs = s.total_docs + batch.length := by
          rw [hs2]
          show (processBatch h s batch).total_docs + batch.length = _
          rw [processBatch_total_docs]
        rw [hs2total]
        omega
      · intro w d
        rw [ihp w d]
        have hmid : posOf h s2 w d = appOpt (posOf h s w d) (occAdds batch w d) := by
          have : posOf h s2 w d = posOf h (processBatch h s batch) w d := rfl
          rw [this]
          exact processBatch_posOf h s batch w d hlen hn
        rw [hmid, appOpt_append]
        congr 1
        rw [← hsplit, occAdds, occAdds, occAdds, List.flatMap_append]
      · intro d
        rw [ihd d]
        have hmid : alGet s2.doc_lengths d
            = match alGet batch d with
              | some c => some (preprocess_text c).length
              | none => alGet s.doc_lengths d := by
          have : s2.doc_lengths = (processBatch h s batch).doc_lengths := rfl
          rw [this, processBatch_doc_lengths]
          exact alGet_lenFold batch s.doc_lengths d hndboth.1
        cases hb : alGet batch d with
        | some c =>
          have hdinb : d ∈ batch.map Prod.fst := mem_keys_of_alGet hb
          have hnr : alGet rest d = none :=
            (alGet_eq_none_iff _ _).2 fun hm => hndboth.2.2 hdinb hm
          have hdocsget : alGet docs d = some c := by
            rw [← hsplit, alGet_append, hb]
            rfl
          rw [hnr] at *
          simp only [hdocsget]
          rw [hmid]
          simp [hb]
        | none =>
          have hdocsget : alGet docs d = alGet rest d := by
            rw [← hsplit, alGet_append, hb]
            rfl
          rw [hdocsget]
          cases hr : alGet rest d with
          | some c2 => simp
          | none =>
            simp only []
            rw [hmid]
            simp [hb]

theorem add_documents_effect (h : String → Nat) (bs : Nat) (s : InvertedIndex)
    (docs : List (Int × String)) (hbs : 0 < bs) (hnd : keysNodup docs)
    (hlen : s.shards.length = s.num_shards) (hn : 0 < s.num_shards) :
    (add_documents h bs s docs).num_shards = s.num_shards ∧
    (add_documents h bs s docs).shards.length = s.shards.length ∧
    (add_documents h bs s docs).total_docs = s.total_docs + docs.length ∧
    (∀ w d, posOf h (add_documents h bs s docs) w d
      = appOpt (posOf h s w d) (occAdds docs w d)) ∧
    (∀ d, alGet (add_documents h bs s docs).doc_lengths d
      = match alGet docs d with
        | some c => some (preprocess_text c).length
        | none => alGet s.doc_lengths d) :=
  addDocsAux_effect h bs hbs docs.length docs s (le_refl _) hnd hlen hn

/-! ## Shard well-formedness invariant -/

/-- Well-formedness of the shard list of a reachable state: every stored
word routes to the shard holding it, word keys and document keys are
distinct within each dict, and posting dicts are nonempty. -/
def ShardsWF (h : String → Nat) (n : Nat) (shs : List IndexShard) : Prop :=
  ∀ i, i < shs.length →
    keysNodup (shs.getD i { index := [], is_dirty := false }).index ∧
    ∀ wdm ∈ (shs.getD i { index := [], is_dirty := false }).index,
      shardIdFor h n wdm.1 = i ∧ wdm.2 ≠ [] ∧ keysNodup wdm.2

theorem alApp_ne_nil {α β : Type} [DecidableEq α] (l : List (α × List β)) (k : α) (x : β) :
    alApp l k x ≠ [] := by
  cases l with
  | nil => simp [alApp]
  | cons hd t =>
    obtain ⟨a, b⟩ := hd
    by_cases h : a = k <;> simp [alApp, h]

theorem keysNodup_postApp (ix : List (String × List (Int × List Nat))) (w : String)
    (d : Int) (p : Nat) (hnd : keysNodup ix) : keysNodup (postApp ix w d p) := by
  induction ix with
  | nil => simp [postApp, keysNodup]
  | cons hd t ih =>
    obtain ⟨a, dm⟩ := hd
    simp only [keysNodup, List.map_cons, List.nodup_cons] at hnd
    by_cases h : a = w
    · subst h
      simpa [postApp, keysNodup] using hnd
    · have htail := ih hnd.2
      have hkeys : (postApp t w d p).map Prod.fst = t.map Prod.fst ∨
          (postApp t w d p).map Prod.fst = t.map Prod.fst ++ [w] := by
        clear hnd htail ih
        induction t with
        | nil => simp [postApp]
        | cons hd2 t2 ih2 =>
          obtain ⟨c, dm2⟩ := hd2
          by_cases h2 : c = w
          · left; simp [postApp, h2]
          · rcases ih2 with h3 | h3 <;> simp [postApp, h2, h3]
      simp only [postApp, if_neg h, keysNodup, List.map_cons, List.nodup_cons]
      refine ⟨?_, htail⟩
      rcases hkeys with h3 | h3 <;> rw [h3]
      · exact hnd.1
      · simp [hnd.1, h]

theorem postApp_prop (h : String → Nat) (n i : Nat)
    (ix : List (String × List (Int × List Nat))) (w : String) (d : Int) (p : Nat)
    (hroute : shardIdFor h n w = i)
    (hprop : ∀ e ∈ ix, shardIdFor h n e.1 = i ∧ e.2 ≠ [] ∧ keysNodup e.2) :
    ∀ e ∈ postApp ix w d p, shardIdFor h n e.1 = i ∧ e.2 ≠ [] ∧ keysNodup e.2 := by
  induction ix with
  | nil =>
    intro e he
    simp [postApp] at he
    subst he
    exact ⟨hroute, by simp, by simp [keysNodup]⟩
  | cons hd t ih =>
    obtain ⟨a, dm⟩ := hd
    intro e he
    by_cases h2 : a = w
    · subst h2
      simp only [postApp, if_pos rfl] at he
      rcases List.mem_cons.1 he with rfl | htl
      · refine ⟨hroute, alApp_ne_nil _ _ _, ?_⟩
        exact keysNodup_alApp _ _ _ (hprop _ (List.mem_cons_self _ _)).2.2
      · exact hprop e (List.mem_cons_of_mem _ htl)
    · simp only [postApp, if_neg h2] at he
      rcases List.mem_cons.1 he with rfl | htl
      · exact hprop _ (List.mem_cons_self _ _)
      · exact ih (fun e2 he2 => hprop e2 (List.mem_cons_of_mem _ he2)) e htl

theorem occFold_keysNodup (ix : List (String × List (Int × List Nat))) (w1 : String)
    (occs : List (Int × Nat)) (hnd : keysNodup ix) :
    keysNodup (occs.foldl (fun ix2 dp => postApp ix2 w1 dp.1 dp.2) ix) := by
  induction occs generalizing ix with
  | nil => exact hnd
  | cons dp occs2 ih =>
    rw [List.foldl_cons]
    exact ih _ (keysNodup_postApp _ _ _ _ hnd)

theorem occFold_prop (h : String → Nat) (n i : Nat)
    (ix : List (String × List (Int × List Nat))) (w1 : String) (occs : List (Int × Nat))
    (hroute : shardIdFor h n w1 = i)
    (hprop : ∀ e ∈ ix, shardIdFor h n e.1 = i ∧ e.2 ≠ [] ∧ keysNodup e.2) :
    ∀ e ∈ occs.foldl (fun ix2 dp => postApp ix2 w1 dp.1 dp.2) ix,
      shardIdFor h n e.1 = i ∧ e.2 ≠ [] ∧ keysNodup e.2 := by
  induction occs generalizing ix with
  | nil => exact hprop
  | cons dp occs2 ih =>
    rw [List.foldl_cons]
    exact ih _ (postApp_prop h n i ix w1 dp.1 dp.2 hroute hprop)

theorem updateShard_keysNodup (sh : IndexShard) (wd : List (String × List (Int × Nat)))
    (hnd : keysNodup sh.index) : keysNodup (updateShard sh wd).index := by
  show keysNodup (wd.foldl _ sh.index)
  generalize sh.index = ix at hnd ⊢
  induction wd generalizing ix with
  | nil => exact hnd
  | cons wo wd2 ih =>
    rw [List.foldl_cons]
    exact ih _ (occFold_keysNodup _ _ _ hnd)

theorem updateShard_prop (h : String → Nat) (n i : Nat) (sh : IndexShard)
    (wd : List (String × List (Int × Nat)))
    (hroute : ∀ wo ∈ wd, shardIdFor h n wo.1 = i)
    (hprop : ∀ e ∈ sh.index, shardIdFor h n e.1 = i ∧ e.2 ≠ [] ∧ keysNodup e.2) :
    ∀ e ∈ (updateShard sh wd).index, shardIdFor h n e.1 = i ∧ e.2 ≠ [] ∧ keysNodup e.2 := by
  show ∀ e ∈ wd.foldl _ sh.index, _
  generalize sh.index = ix at hprop ⊢
  induction wd generalizing ix with
  | nil => exact hprop
  | cons wo wd2 ih =>
    rw [List.foldl_cons]
    exact ih (fun wo2 hwo2 => hroute wo2 (List.mem_cons_of_mem _ hwo2)) _
      (occFold_prop h n i ix wo.1 wo.2 (hroute wo (List.mem_cons_self _ _)) hprop)

theorem shardsWF_applyToShards (h : String → Nat) (n : Nat) (shs : List IndexShard)
    (e : Nat × List (String × List (Int × Nat)))
    (hwf : ShardsWF h n shs) (hroute : ∀ wo ∈ e.2, shardIdFor h n wo.1 = e.1) :
    ShardsWF h n (applyToShards shs e) := by
  unfold applyToShards
  cases hget : shs.get? e.1 with
  | none => exact hwf
  | some sh =>
    have hlt : e.1 < shs.length := by
      have := List.get?_eq_some.1 hget
      exact this.1
    have hsh : sh = shs.getD e.1 { index := [], is_dirty := false } := by
      rw [List.getD_eq_getElem?_getD, ← List.get?_eq_getElem?, hget]
      rfl
    intro i hi
    rw [List.length_set] at hi
    by_cases hie : i = e.1
    · rw [hie]
      have hupd : (shs.set e.1 (updateShard sh e.2)).getD e.1 { index := [], is_dirty := false }
          = updateShard sh e.2 := by
        rw [List.getD_eq_getElem?_getD, List.getElem?_set_self hlt]
        rfl
      rw [hupd]
      obtain ⟨hnd0, hprop0⟩ := hwf e.1 hlt
      rw [← hsh] at hnd0 hprop0
      exact ⟨updateShard_keysNodup sh e.2 hnd0, updateShard_prop h n e.1 sh e.2 hroute hprop0⟩
    · have hsame : (shs.set e.1 (updateShard sh e.2)).getD i { index := [], is_dirty := false }
          = shs.getD i { index := [], is_dirty := false } := by
        rw [List.getD_eq_getElem?_getD, List.getD_eq_getElem?_getD,
          List.getElem?_set_ne (fun hh => hie hh.symm)]
      rw [hsame]
      exact hwf i hi

theorem shardsWF_applyFold (h : String → Nat) (n : Nat) (buf : ShardBuffer)
    (shs : List IndexShard) (hwf : ShardsWF h n shs)
    (hroute : ∀ e ∈ buf, ∀ wo ∈ e.2, shardIdFor h n wo.1 = e.1) :
    ShardsWF h n (buf.foldl applyToShards shs) := by
  induction buf generalizing shs with
  | nil => exact hwf
  | cons e buf2 ih =>
    rw [List.foldl_cons]
    exact ih _ (shardsWF_applyToShards h n shs e hwf (hroute e (List.mem_cons_self _ _)))
      (fun e2 he2 => hroute e2 (List.mem_cons_of_mem _ he2))

theorem shardsWF_processBatch (h : String → Nat) (s : InvertedIndex)
    (docs : List (Int × String)) (hn : 0 < s.num_shards)
    (hwf : ShardsWF h s.num_shards s.shards) :
    ShardsWF h s.num_shards (processBatch h s docs).shards := by
  rw [processBatch_shards]
  have hbwf : BufWF h s.num_shards
      (docs.foldl (fun b dc => collectDoc h s.num_shards dc.1 (preprocess_text dc.2) b) []) :=
    bufWF_collectBatch h s.num_shards docs [] hn (bufWF_nil h s.num_shards)
  exact shardsWF_applyFold h s.num_shards _ s.shards hwf hbwf.2.2.2

theorem shardsWF_addDocsAux (h : String → Nat) (bs : Nat) :
    ∀ (fuel : Nat) (docs : List (Int × String)) (s : InvertedIndex),
      0 < s.num_shards → ShardsWF h s.num_shards s.shards →
      ShardsWF h (addDocsAux h bs fuel s docs).num_shards
        (addDocsAux h bs fuel s docs).shards := by
  intro fuel
  induction fuel with
  | zero =>
    intro docs s hn hwf
    exact hwf
  | succ fuel ih =>
    intro docs s hn hwf
    cases docs with
    | nil => exact hwf
    | cons dc docs2 =>
      have hstep : addDocsAux h bs (fuel + 1) s (dc :: docs2)
          = addDocsAux h bs fuel
              { processBatch h s ((dc :: docs2).take bs) with
                total_docs := (processBatch h s ((dc :: docs2).take bs)).total_docs
                  + ((dc :: docs2).take bs).length }
              ((dc :: docs2).drop bs) := rfl
      rw [hstep]
      apply ih
      · show 0 < (processBatch h s ((dc :: docs2).take bs)).num_shards
        rw [processBatch_num_shards]
        exact hn
      · show ShardsWF h (processBatch h s ((dc :: docs2).take bs)).num_shards
          (processBatch h s ((dc :: docs2).take bs)).shards
        rw [processBatch_num_shards]
        exact shardsWF_processBatch h s ((dc :: docs2).take bs) hn hwf

theorem shardsWF_empty (h : String → Nat) (n : Nat) :
    ShardsWF h n (emptyIndex n).shards := by
  intro i hi
  have : (emptyIndex n).shards.getD i { index := [], is_dirty := false }
      = { index := [], is_dirty := false } := by
    rw [List.getD_eq_getElem?_getD]
    show ((List.replicate n _)[i]?).getD _ = _
    rw [List.getElem?_replicate]
    by_cases hin : i < n <;> simp [hin]
  rw [this]
  exact ⟨by simp [keysNodup], by simp⟩

theorem shardsWF_built (h : String → Nat) (n bs : Nat) (docs : List (Int × String))
    (hn : 0 < n) :
    ShardsWF h (add_documents h bs (emptyIndex n) docs).num_shards
      (add_documents h bs (emptyIndex n) docs).shards :=
  shardsWF_addDocsAux h bs docs.length docs (emptyIndex n) hn (shardsWF_empty h n)

/-- Inside a well-formed state, a stored entry is recoverable through the
routing lookup `posOf`. -/
theorem entry_posOf (h : String → Nat) (s : InvertedIndex)
    (hwf : ShardsWF h s.num_shards s.shards)
    (i : Nat) (hi : i < s.shards.length)
    (wdm : String × List (Int × List Nat))
    (hmem : wdm ∈ (s.shards.getD i { index := [], is_dirty := false }).index)
    (dps : Int × List Nat) (hdps : dps ∈ wdm.2) :
    posOf h s wdm.1 dps.1 = some dps.2 := by
  obtain ⟨hnd, hprop⟩ := hwf i hi
  obtain ⟨hroute, hne, hnddm⟩ := hprop wdm hmem
  rw [posOf, getShard]
  have hgs : s.shards.getD (shardIdFor h s.num_shards wdm.1) { index := [], is_dirty := false }
      = s.shards.getD i { index := [], is_dirty := false } := by
    rw [hroute]
  rw [hgs, postGet, alGet_of_mem_of_nodup hmem hnd]
  show alGet wdm.2 dps.1 = some dps.2
  exact alGet_of_mem_of_nodup hdps hnddm

/-- In an empty index no word maps to any posting. -/
theorem posOf_empty (h : String → Nat) (n : Nat) (w : String) (d : Int) :
    posOf h (emptyIndex n) w d = none := by
  rw [posOf, getShard]
  have : (emptyIndex n).shards.getD (shardIdFor h (emptyIndex n).num_shards w)
      { index := [], is_dirty := false } = { index := [], is_dirty := false } := by
    rw [List.getD_eq_getElem?_getD]
    show ((List.replicate n _)[_]?).getD _ = _
    rw [List.getElem?_replicate]
    by_cases hin : shardIdFor h (emptyIndex n).num_shards w < n <;> simp [hin]
  rw [this]
  rfl

/-- For nodup-keyed ingestion input, the positions a call appends for
`(w, d)` are exactly the occurrence indices of `w` in `d`'s content. -/
theorem occAdds_nodup (docs : List (Int × String)) (w : String) (d : Int)
    (hnd : keysNodup docs) :
    occAdds docs w d
      = ((alGet docs d).map fun c => occIdx w (preprocess_text c)).getD [] :=
  flatMap_guard_eq_alGet docs d (fun c => occIdx w (preprocess_text c)) hnd

/-! ## Occurrence-index facts -/

theorem enumFrom_pairwise {α : Type} (i : Nat) (l : List α) :
    (List.enumFrom i l).Pairwise fun a b => a.1 < b.1 := by
  induction l generalizing i with
  | nil => simp
  | cons x t ih =>
    rw [List.enumFrom_cons]
    refine List.Pairwise.cons ?_ (ih (i + 1))
    intro y hy
    obtain ⟨p, a⟩ := y
    have h1 := (List.mem_enumFrom hy).1
    simpa using Nat.lt_of_lt_of_le (Nat.lt_succ_self i) h1

/-- Positions recorded for one occurrence scan are strictly increasing. -/
theorem occIdx_pairwise (w : String) (ts : List String) :
    List.Pairwise (· < ·) (occIdx w ts) := by
  rw [occIdx, List.pairwise_map]
  apply List.Pairwise.filter
  exact enumFrom_pairwise 0 ts

theorem occIdx_nil (w : String) : occIdx w [] = [] := rfl

/-! ## Query-engine lemmas -/

theorem alSet_append_left {α β : Type} [DecidableEq α] (l₁ l₂ : List (α × β)) (k : α) (v : β)
    (hmem : alGet l₁ k = none) : alSet (l₁ ++ l₂) k v = l₁ ++ alSet l₂ k v := by
  induction l₁ with
  | nil => simp
  | cons hd t ih =>
    obtain ⟨a, b⟩ := hd
    by_cases h : a = k
    · simp [alGet, h] at hmem
    · simp [alGet, h] at hmem
      simp [alSet, h, ih hmem]

theorem mergeScores_fresh (m tm : List (Int × ℚ)) (hnd : keysNodup (m ++ tm)) :
    mergeScores m tm = m ++ tm := by
  rw [mergeScores]
  induction tm generalizing m with
  | nil => simp
  | cons dv tm2 ih =>
    obtain ⟨d, v⟩ := dv
    have hdm : alGet m d = none := by
      apply (alGet_eq_none_iff _ _).2
      rw [keysNodup, List.map_append, List.nodup_append] at hnd
      exact fun hm => hnd.2.2 hm (by simp)
    rw [List.foldl_cons, hdm]
    have hset : alSet m d ((none : Option ℚ).getD 0 + v) = m ++ [(d, v)] := by
      rw [alSet_eq_append_of_not_mem _ hdm]
      norm_num
    rw [hset]
    have hnd2 : keysNodup ((m ++ [(d, v)]) ++ tm2) := by
      have : (m ++ [(d, v)]) ++ tm2 = m ++ (d, v) :: tm2 := by simp
      rw [this]
      exact hnd
    have := ih (m ++ [(d, v)]) hnd2
    rw [this]
    simp

theorem mergeScores_self_aux :
    ∀ (todo done : List (Int × ℚ)), keysNodup (done ++ todo) →
      todo.foldl (fun m2 dv => alSet m2 dv.1 ((alGet m2 dv.1).getD 0 + dv.2))
          ((done.map fun p => (p.1, p.2 + p.2)) ++ todo)
        = (done ++ todo).map fun p => (p.1, p.2 + p.2) := by
  intro todo
  induction todo with
  | nil =>
    intro done hnd
    simp
  | cons dv todo2 ih =>
    intro done hnd
    obtain ⟨d, v⟩ := dv
    have hkeys : (done.map fun p => (p.1, p.2 + p.2)).map Prod.fst = done.map Prod.fst := by
      rw [List.map_map]
      rfl
    have hdnotdone : d ∉ done.map Prod.fst := by
      rw [keysNodup, List.map_append, List.nodup_append] at hnd
      exact fun hm => hnd.2.2 hm (by simp)
    have hget1 : alGet (done.map fun p => (p.1, p.2 + p.2)) d = none := by
      apply (alGet_eq_none_iff _ _).2
      rw [hkeys]
      exact hdnotdone
    have hgetacc : alGet ((done.map fun p => (p.1, p.2 + p.2)) ++ (d, v) :: todo2) d
        = some v := by
      rw [alGet_append, hget1]
      simp [alGet, Option.orElse]
    rw [List.foldl_cons, hgetacc]
    have hset : alSet ((done.map fun p => (p.1, p.2 + p.2)) ++ (d, v) :: todo2) d
          ((some v).getD 0 + v)
        = ((done ++ [(d, v)]).map fun p => (p.1, p.2 + p.2)) ++ todo2 := by
      rw [alSet_append_left _ _ _ _ hget1]
      have : alSet ((d, v) :: todo2) d ((some v).getD 0 + v) = (d, v + v) :: todo2 := by
        simp [alSet]
      rw [this]
      simp
    rw [hset]
    have hnd2 : keysNodup ((done ++ [(d, v)]) ++ todo2) := by
      have : (done ++ [(d, v)]) ++ todo2 = done ++ (d, v) :: todo2 := by simp
      rw [this]
      exact hnd
    have := ih (done ++ [(d, v)]) hnd2
    rw [this]
    simp

theorem mergeScores_self (tm : List (Int × ℚ)) (hnd : keysNodup tm) :
    mergeScores tm tm = tm.map fun p => (p.1, p.2 + p.2) := by
  have := mergeScores_self_aux tm [] (by simpa using hnd)
  simpa [mergeScores] using this

theorem keysNodup_foldl_alSet (dm : List (Int × List Nat)) :
    ∀ (m0 : List (Int × ℚ)), keysNodup m0 →
      keysNodup (dm.foldl (fun m dps => alSet m dps.1 (1 : ℚ)) m0) := by
  induction dm with
  | nil => intro m0 hnd; exact hnd
  | cons dps dm2 ih =>
    intro m0 hnd
    rw [List.foldl_cons]
    exact ih _ (keysNodup_alSet _ _ _ hnd)

theorem tfidfFold_none (dl : List (Int × Nat)) (idf : ℚ) (dm : List (Int × List Nat)) :
    dm.foldl
        (fun acc dps =>
          match acc with
          | none => none
          | some m =>
            match alGet dl dps.1 with
            | none => none
            | some L =>
              if L = 0 then none
              else some (alSet m dps.1 (((dps.2.length : ℚ) / (L : ℚ)) * idf)))
        none = none := by
  induction dm with
  | nil => rfl
  | cons dps dm2 ih => rw [List.foldl_cons]; exact ih

theorem tfidfFold_nodup (dl : List (Int × Nat)) (idf : ℚ) (dm : List (Int × List Nat)) :
    ∀ (m0 : List (Int × ℚ)) (tm : List (Int × ℚ)), keysNodup m0 →
      dm.foldl
          (fun acc dps =>
            match acc with
            | none => none
            | some m =>
              match alGet dl dps.1 with
              | none => none
              | some L =>
                if L = 0 then none
                else some (alSet m dps.1 (((dps.2.length : ℚ) / (L : ℚ)) * idf)))
          (some m0) = some tm →
      keysNodup tm := by
  induction dm with
  | nil =>
    intro m0 tm hnd heq
    rw [List.foldl_nil] at heq
    cases heq
    exact hnd
  | cons dps dm2 ih =>
    intro m0 tm hnd heq
    rw [List.foldl_cons] at heq
    cases hL : alGet dl dps.1 with
    | none =>
      rw [hL] at heq
      simp only [] at heq
      rw [tfidfFold_none] at heq
      exact absurd heq (by simp)
    | some L =>
      rw [hL] at heq
      simp only [] at heq
      by_cases hL0 : L = 0
      · rw [if_pos hL0] at heq
        rw [tfidfFold_none] at heq
        exact absurd heq (by simp)
      · rw [if_neg hL0] at heq
        exact ih _ _ (keysNodup_alSet _ _ _ hnd) heq

theorem processTerm_nodup (h : String → Nat) (lg : ℚ → ℚ) (s : InvertedIndex)
    (flag : Bool) (t : String) (tm : List (Int × ℚ))
    (heq : processTerm h lg s flag t = some tm) : keysNodup tm := by
  rw [processTerm] at heq
  cases hget : alGet (getShard h s t).index t with
  | none =>
    rw [hget] at heq
    cases heq
    simp [keysNodup]
  | some dm =>
    rw [hget] at heq
    simp only [] at heq
    by_cases hdm : dm.length = 0
    · rw [if_pos hdm] at heq; cases heq
    · rw [if_neg hdm] at heq
      by_cases htot : s.total_docs = 0
      · rw [if_pos htot] at heq; cases heq
      · rw [if_neg htot] at heq
        cases flag with
        | true =>
          rw [if_pos rfl] at heq
          exact tfidfFold_nodup s.doc_lengths _ dm [] tm (by simp [keysNodup]) heq
        | false =>
          rw [if_neg (by simp)] at heq
          cases heq
          exact keysNodup_foldl_alSet dm [] (by simp [keysNodup])

theorem insertScoreDesc_double (x : Int × ℚ) (l : List (Int × ℚ)) :
    insertScoreDesc (x.1, x.2 + x.2) (l.map fun p => (p.1, p.2 + p.2))
      = (insertScoreDesc x l).map fun p => (p.1, p.2 + p.2) := by
  induction l with
  | nil => simp [insertScoreDesc]
  | cons y t ih =>
    have hiff : x.2 + x.2 ≤ y.2 + y.2 ↔ x.2 ≤ y.2 := by constructor <;> intro <;> linarith
    by_cases hc : x.2 ≤ y.2
    · simp [insertScoreDesc, hc, hiff.2 hc, ih]
    · have hc2 : ¬(x.2 + x.2 ≤ y.2 + y.2) := fun hh => hc (hiff.1 hh)
      simp [insertScoreDesc, hc, hc2]

theorem sortScoresDesc_double (l : List (Int × ℚ)) :
    sortScoresDesc (l.map fun p => (p.1, p.2 + p.2))
      = (sortScoresDesc l).map fun p => (p.1, p.2 + p.2) := by
  rw [sortScoresDesc, sortScoresDesc]
  have haux : ∀ (l acc : List (Int × ℚ)),
      (l.map fun p => (p.1, p.2 + p.2)).foldl (fun acc2 x => insertScoreDesc x acc2)
          (acc.map fun p => (p.1, p.2 + p.2))
        = (l.foldl (fun acc2 x => insertScoreDesc x acc2) acc).map fun p => (p.1, p.2 + p.2) := by
    intro l
    induction l with
    | nil => intro acc; simp
    | cons x t ih =>
      intro acc
      rw [List.map_cons, List.foldl_cons, List.foldl_cons, insertScoreDesc_double x acc]
      exact ih _
  simpa using haux l []

/-- Fan-out over a two-occurrence query `[t, t]` doubles the one-occurrence
score dict (the source runs `process_term` once per occurrence and sums). -/
theorem searchScores_pair (h : String → Nat) (lg : ℚ → ℚ) (s : InvertedIndex) (t : String)
    (flag : Bool) :
    searchScores h lg s [t, t] flag
      = (searchScores h lg s [t] flag).map fun sc => sc.map fun p => (p.1, p.2 + p.2) := by
  rw [searchScores, searchScores]
  cases hpt : processTerm h lg s flag t with
  | none => simp [hpt]
  | some tm =>
    have hnd : keysNodup tm := processTerm_nodup h lg s flag t tm hpt
    simp only [List.foldl_cons, List.foldl_nil, hpt]
    have h1 : mergeScores [] tm = tm := by
      have := mergeScores_fresh [] tm (by simpa using hnd)
      simpa using this
    rw [h1, mergeScores_self tm hnd]
    rfl

/-- The full duplicated-term pipeline: same documents in the same order,
scores doubled. -/
theorem searchTokens_dup (h : String → Nat) (lg : ℚ → ℚ) (s : InvertedIndex) (t : String)
    (flag : Bool) (m : Nat) :
    searchTokens h lg s [t, t] flag m
      = (searchTokens h lg s [t] flag m).map fun r => r.map fun p => (p.1, p.2 + p.2) := by
  rw [searchTokens, searchTokens, if_neg (by simp), if_neg (by simp), searchScores_pair]
  cases hsc : searchScores h lg s [t] flag with
  | none => rfl
  | some sc =>
    show some ((sortScoresDesc (sc.map fun p => (p.1, p.2 + p.2))).take m)
        = some (((sortScoresDesc sc).take m).map fun p => (p.1, p.2 + p.2))
    rw [sortScoresDesc_double, ← List.map_take]

theorem tfidfFold_eq (dl : List (Int × Nat)) (idf : ℚ) :
    ∀ (dm : List (Int × List Nat)) (m0 : List (Int × ℚ)),
      (∀ dps ∈ dm, alGet m0 dps.1 = none) → keysNodup dm →
      (∀ dps ∈ dm, ∃ L, alGet dl dps.1 = some L ∧ L ≠ 0) →
      dm.foldl
          (fun acc dps =>
            match acc with
            | none => none
            | some m =>
              match alGet dl dps.1 with
              | none => none
              | some L =>
                if L = 0 then none
                else some (alSet m dps.1 (((dps.2.length : ℚ) / (L : ℚ)) * idf)))
          (some m0)
        = some (m0 ++ dm.map fun dps =>
            (dps.1,
              ((dps.2.length : ℚ) / (((alGet dl dps.1).getD 1 : Nat) : ℚ)) * idf)) := by
  intro dm
  induction dm with
  | nil =>
    intro m0 hfresh hnd hlook
    simp
  | cons dps dm2 ih =>
    intro m0 hfresh hnd hlook
    obtain ⟨L, hL, hL0⟩ := hlook dps (List.mem_cons_self _ _)
    rw [List.foldl_cons, hL]
    simp only []
    rw [if_neg hL0]
    have hset : alSet m0 dps.1 (((dps.2.length : ℚ) / (L : ℚ)) * idf)
        = m0 ++ [(dps.1, ((dps.2.length : ℚ) / (L : ℚ)) * idf)] :=
      alSet_eq_append_of_not_mem _ (hfresh dps (List.mem_cons_self _ _))
    rw [hset]
    simp only [keysNodup, List.map_cons, List.nodup_cons] at hnd
    have hfresh2 : ∀ dps2 ∈ dm2,
        alGet (m0 ++ [(dps.1, ((dps.2.length : ℚ) / (L : ℚ)) * idf)]) dps2.1 = none := by
      intro dps2 hmem
      rw [alGet_append, hfresh dps2 (List.mem_cons_of_mem _ hmem)]
      have hne : dps.1 ≠ dps2.1 := by
        intro hh
        exact hnd.1 (hh ▸ List.mem_map_of_mem Prod.fst hmem)
      simp [alGet, hne, Option.orElse]
    have := ih (m0 ++ [(dps.1, ((dps.2.length : ℚ) / (L : ℚ)) * idf)]) hfresh2 hnd.2
      (fun dps2 hmem => hlook dps2 (List.mem_cons_of_mem _ hmem))
    rw [this]
    simp [hL, List.append_assoc]

theorem tfidfFold_ne_none (dl : List (Int × Nat)) (idf : ℚ) :
    ∀ (dm : List (Int × List Nat)) (m0 : List (Int × ℚ)),
      (∀ dps ∈ dm, ∃ L, alGet dl dps.1 = some L ∧ L ≠ 0) →
      dm.foldl
          (fun acc dps =>
            match acc with
            | none => none
            | some m =>
              match alGet dl dps.1 with
              | none => none
              | some L =>
                if L = 0 then none
                else some (alSet m dps.1 (((dps.2.length : ℚ) / (L : ℚ)) * idf)))
          (some m0) ≠ none := by
  intro dm
  induction dm with
  | nil =>
    intro m0 hlook
    simp
  | cons dps dm2 ih =>
    intro m0 hlook
    obtain ⟨L, hL, hL0⟩ := hlook dps (List.mem_cons_self _ _)
    rw [List.foldl_cons, hL]
    simp only []
    rw [if_neg hL0]
    exact ih _ (fun dps2 hmem => hlook dps2 (List.mem_cons_of_mem _ hmem))

/-- Full evaluation of `process_term` with TF-IDF scoring when the term is
present and every posting document has a recorded nonzero length. -/
theorem processTerm_tfidf (h : String → Nat) (lg : ℚ → ℚ) (s : InvertedIndex) (t : String)
    (dm : List (Int × List Nat)) (hget : alGet (getShard h s t).index t = some dm)
    (hdm : dm ≠ []) (htot : s.total_docs ≠ 0) (hnd : keysNodup dm)
    (hlook : ∀ dps ∈ dm, ∃ L, alGet s.doc_lengths dps.1 = some L ∧ L ≠ 0) :
    processTerm h lg s true t
      = some (dm.map fun dps =>
          (dps.1,
            ((dps.2.length : ℚ) / (((alGet s.doc_lengths dps.1).getD 1 : Nat) : ℚ))
              * lg ((s.total_docs : ℚ) / (dm.length : ℚ)))) := by
  rw [processTerm, hget]
  simp only []
  rw [if_neg (by simpa using hdm), if_neg htot]
  have := tfidfFold_eq s.doc_lengths (lg ((s.total_docs : ℚ) / (dm.length : ℚ))) dm []
    (by intro dps hmem; rfl) hnd hlook
  rw [this]
  simp

/-- `process_term` never faults when every present term has a nonempty
posting over documents with recorded nonzero lengths and the corpus is
nonempty whenever some term is present. -/
theorem processTerm_ne_none (h : String → Nat) (lg : ℚ → ℚ) (s : InvertedIndex)
    (flag : Bool) (t : String)
    (hcond : ∀ dm, alGet (getShard h s t).index t = some dm →
      dm ≠ [] ∧ s.total_docs ≠ 0 ∧
        ∀ dps ∈ dm, ∃ L, alGet s.doc_lengths dps.1 = some L ∧ L ≠ 0) :
    processTerm h lg s flag t ≠ none := by
  rw [processTerm]
  cases hget : alGet (getShard h s t).index t with
  | none => simp
  | some dm =>
    obtain ⟨hdm, htot, hlook⟩ := hcond dm hget
    simp only []
    rw [if_neg (by simpa using hdm), if_neg htot]
    cases flag with
    | true =>
      rw [if_pos rfl]
      exact tfidfFold_ne_none s.doc_lengths _ dm [] hlook
    | false =>
      rw [if_neg (by simp)]
      simp

theorem searchScores_ne_none (h : String → Nat) (lg : ℚ → ℚ) (s : InvertedIndex)
    (terms : List String) (flag : Bool)
    (hterm : ∀ t ∈ terms, processTerm h lg s flag t ≠ none) :
    searchScores h lg s terms flag ≠ none := by
  rw [searchScores]
  have haux : ∀ (terms2 : List String) (m : List (Int × ℚ)),
      (∀ t ∈ terms2, processTerm h lg s flag t ≠ none) →
      terms2.foldl
          (fun acc t =>
            match acc, processTerm h lg s flag t with
            | some m, some tm => some (mergeScores m tm)
            | _, _ => none)
          (some m) ≠ none := by
    intro terms2
    induction terms2 with
    | nil => intro m hh; simp
    | cons t terms3 ih =>
      intro m hh
      rw [List.foldl_cons]
      cases hpt : processTerm h lg s flag t with
      | none => exact absurd hpt (hh t (List.mem_cons_self _ _))
      | some tm =>
        simp only []
        exact ih _ (fun t2 ht2 => hh t2 (List.mem_cons_of_mem _ ht2))
  exact haux terms [] hterm

theorem alGet_map_entry (f : Int × List Nat → ℚ) (dm : List (Int × List Nat)) (k : Int)
    (v : List Nat) (hget : alGet dm k = some v) :
    alGet (dm.map fun dps => (dps.1, f dps)) k = some (f (k, v)) := by
  induction dm with
  | nil => simp [alGet] at hget
  | cons hd t ih =>
    obtain ⟨a, b⟩ := hd
    by_cases ha : a = k
    · subst ha
      simp [alGet] at hget
      simp [alGet, hget]
    · simp [alGet, ha] at hget
      simp [alGet, ha, ih hget]

theorem alGet_map_entry_none (f : Int × List Nat → ℚ) (dm : List (Int × List Nat)) (k : Int)
    (hget : alGet dm k = none) :
    alGet (dm.map fun dps => (dps.1, f dps)) k = none := by
  induction dm with
  | nil => simp [alGet]
  | cons hd t ih =>
    obtain ⟨a, b⟩ := hd
    by_cases ha : a = k
    · simp [alGet, ha] at hget
    · simp [alGet, ha] at hget
      simp [alGet, ha, ih hget]

/-! ## Phrase-search machinery -/

theorem mem_enumFrom_of_getElem {α : Type} (l : List α) :
    ∀ (k j : Nat) (hj : j < l.length), (k + j, l[j]) ∈ List.enumFrom k l := by
  induction l with
  | nil => intro k j hj; simp at hj
  | cons x t ih =>
    intro k j hj
    rw [List.enumFrom_cons]
    cases j with
    | zero => simp
    | succ j2 =>
      right
      have := ih (k + 1) j2 (by simpa using hj)
      have harith : k + 1 + j2 = k + (j2 + 1) := by omega
      rw [harith] at this
      simpa using this

theorem mem_enum_of_getElem {α : Type} (l : List α) (j : Nat) (hj : j < l.length) :
    (j, l[j]) ∈ l.enum := by
  have := mem_enumFrom_of_getElem l 0 j hj
  simpa [List.enum] using this

theorem getPositions_absent (h : String → Nat) (s : InvertedIndex) (w : String) (d : Int)
    (hget : alGet (getShard h s w).index w = none) : getPositions h s w d = [] := by
  rw [getPositions, hget]

theorem getPositions_present (h : String → Nat) (s : InvertedIndex) (w : String) (d : Int)
    (dm : List (Int × List Nat)) (hget : alGet (getShard h s w).index w = some dm) :
    getPositions h s w d = (alGet dm d).getD [] := by
  rw [getPositions, hget]

/-- Word-presence test used by the candidate intersection. -/
def hasEntry (h : String → Nat) (s : InvertedIndex) (w : String) (d : Int) : Bool :=
  (alGet ((alGet (getShard h s w).index w).getD []) d).isSome

theorem candFold_none (h : String → Nat) (s : InvertedIndex) (ws : List String) :
    ws.foldl
        (fun (acc : Option (List Int)) (w2 : String) =>
          match acc with
          | none => none
          | some c =>
            match alGet (getShard h s w2).index w2 with
            | none => none
            | some dm => some (c.filter fun d => (alGet dm d).isSome))
        none = none := by
  induction ws with
  | nil => rfl
  | cons w3 ws3 ih3 => rw [List.foldl_cons]; exact ih3

theorem candidateFilter_eq (h : String → Nat) (s : InvertedIndex) :
    ∀ (ws : List String) (cand : List Int),
      candidateFilter h s ws cand
        = if ∀ w ∈ ws, (alGet (getShard h s w).index w).isSome = true
          then some (cand.filter fun d => ws.all fun w => hasEntry h s w d)
          else none := by
  intro ws
  induction ws with
  | nil =>
    intro cand
    rw [if_pos (by simp)]
    simp [candidateFilter]
  | cons w ws2 ih =>
    intro cand
    rw [candidateFilter, List.foldl_cons]
    cases hget : alGet (getShard h s w).index w with
    | none =>
      have hcond : ¬∀ w2 ∈ w :: ws2, (alGet (getShard h s w2).index w2).isSome = true := by
        intro hall
        have := hall w (List.mem_cons_self _ _)
        rw [hget] at this
        simp at this
      rw [if_neg hcond]
      simp only []
      exact candFold_none h s ws2
    | some dm =>
      simp only []
      have := ih (cand.filter fun d => (alGet dm d).isSome)
      rw [candidateFilter] at this
      rw [this]
      by_cases hcond : ∀ w2 ∈ ws2, (alGet (getShard h s w2).index w2).isSome = true
      · rw [if_pos hcond, if_pos ?side]
        case side =>
          intro w2 hw2
          rcases List.mem_cons.1 hw2 with rfl | hm
          · rw [hget]; rfl
          · exact hcond w2 hm
        rw [List.filter_filter]
        refine congrArg some ?_
        apply List.filter_congr
        intro d hd
        have hw : hasEntry h s w d = (alGet dm d).isSome := by
          rw [hasEntry, hget]
          rfl
        simp [hw, Bool.and_comm]
      · rw [if_neg hcond, if_neg ?side2]
        case side2 =>
          intro hall
          exact hcond fun w2 hw2 => hall w2 (List.mem_cons_of_mem _ hw2)

theorem chunksFilter (p : Int → Bool) :
    ∀ (fuel b : Nat) (l acc : List Int), 0 < b → l.length ≤ fuel →
      (chunksAux b fuel l).foldl (fun res batch => res ++ batch.filter p) acc
        = acc ++ l.filter p := by
  intro fuel
  induction fuel with
  | zero =>
    intro b l acc hb hl
    have : l = [] := List.length_eq_zero.1 (Nat.le_zero.1 hl)
    subst this
    simp [chunksAux]
  | succ fuel ih =>
    intro b l acc hb hl
    cases l with
    | nil => simp [chunksAux]
    | cons x t =>
      rw [chunksAux, List.foldl_cons]
      have hlen : ((x :: t).drop b).length ≤ fuel := by
        rw [List.length_drop]
        have : (x :: t).length ≤ fuel + 1 := hl
        have h1 : 1 ≤ (x :: t).length := by simp
        omega
      rw [ih b _ _ hb hlen]
      rw [List.append_assoc, ← List.filter_append, List.take_append_drop]

theorem getD_of_lt {α : Type} (l : List α) (j : Nat) (hj : j < l.length) (dflt : α) :
    l.getD j dflt = l[j] := by
  rw [List.getD_eq_getElem?_getD, List.getElem?_eq_getElem hj]
  rfl

theorem hasEntry_of_pos_mem (h : String → Nat) (s : InvertedIndex) (w : String) (d : Int)
    (p2 : Nat) (hmem : p2 ∈ getPositions h s w d) : hasEntry h s w d = true := by
  rw [getPositions] at hmem
  rw [hasEntry]
  cases halg : alGet (getShard h s w).index w with
  | none =>
    rw [halg] at hmem
    simp at hmem
  | some dm =>
    rw [halg] at hmem
    simp only [] at hmem
    simp only [Option.getD_some]
    cases hdg : alGet dm d with
    | none => rw [hdg] at hmem; simp at hmem
    | some ps => simp

/-- The specified phrase-occurrence notion: some start position `p` has the
i-th token of the phrase recorded at position `p + i` of document `d`, for
every i below the phrase length. -/
def PhraseOccurs (h : String → Nat) (s : InvertedIndex) (ws : List String) (d : Int) :
    Prop :=
  ws ≠ [] ∧ ∃ p : Nat, ∀ i, i < ws.length → (p + i) ∈ getPositions h s (ws.getD i "") d

theorem phraseSearchWith_mem (b : Nat) (h : String → Nat) (s : InvertedIndex)
    (phrase : String) (d : Int) (hb : 0 < b) :
    d ∈ phraseSearchWith b h s phrase ↔ PhraseOccurs h s (preprocess_text phrase) d := by
  rw [phraseSearchWith]
  cases hws : preprocess_text phrase with
  | nil => simp [PhraseOccurs]
  | cons w0 rest =>
    simp only []
    cases hget : alGet (getShard h s w0).index w0 with
    | none =>
      refine ⟨fun hmem => absurd hmem (List.not_mem_nil d), fun hocc => ?_⟩
      obtain ⟨-, p, hp⟩ := hocc
      have h0 := hp 0 (by simp)
      rw [List.getD_cons_zero, getPositions_absent h s w0 d hget] at h0
      simp at h0
    | some dm0 =>
      simp only []
      rw [candidateFilter_eq]
      by_cases hcond : ∀ w ∈ rest, (alGet (getShard h s w).index w).isSome = true
      · rw [if_pos hcond]
        simp only []
        rw [chunksFilter _ _ b _ [] hb (le_refl _), List.nil_append,
          List.mem_filter, List.mem_filter, List.mem_dedup]
        constructor
        · rintro ⟨⟨hkeys, hall⟩, hcheck⟩
          rw [checkDoc, List.any_eq_true] at hcheck
          obtain ⟨p, hpmem, hpcheck⟩ := hcheck
          rw [checkPos, List.all_eq_true] at hpcheck
          refine ⟨by simp, p, ?_⟩
          intro i hi
          cases i with
          | zero =>
            rw [List.getD_cons_zero]
            simpa using hpmem
          | succ j =>
            have hj : j < rest.length := by simpa using hi
            have hjm := mem_enum_of_getElem rest j hj
            have := hpcheck (j, rest[j]) hjm
            have hmem := of_decide_eq_true this
            rw [List.getD_cons_succ, getD_of_lt rest j hj]
            have harith : p + (j + 1) = p + j + 1 := by omega
            rw [harith]
            exact hmem
        · rintro ⟨-, p, hp⟩
          have h0 := hp 0 (by simp)
          rw [List.getD_cons_zero] at h0
          have h0p : p ∈ getPositions h s w0 d := by simpa using h0
          have hgp : getPositions h s w0 d = (alGet dm0 d).getD [] :=
            getPositions_present h s w0 d dm0 hget
          have hdg : ∃ ps, alGet dm0 d = some ps := by
            cases hdg2 : alGet dm0 d with
            | none =>
              rw [hgp, hdg2] at h0p
              simp at h0p
            | some ps => exact ⟨ps, rfl⟩
          obtain ⟨ps, hps⟩ := hdg
          refine ⟨⟨?_, ?_⟩, ?_⟩
          · exact mem_keys_of_alGet hps
          · rw [List.all_eq_true]
            intro w hw
            obtain ⟨j, hj, rfl⟩ := List.getElem_of_mem hw
            have := hp (j + 1) (by simpa using hj)
            rw [List.getD_cons_succ, getD_of_lt rest j hj] at this
            exact hasEntry_of_pos_mem h s _ d _ this
          · rw [checkDoc, List.any_eq_true]
            refine ⟨p, h0p, ?_⟩
            rw [checkPos, List.all_eq_true]
            intro iw hiw
            obtain ⟨piw, wiw⟩ := iw
            have hme := List.mem_enum hiw
            apply decide_eq_true
            have := hp (piw + 1) (by simpa using Nat.succ_lt_succ hme.1)
            rw [List.getD_cons_succ, getD_of_lt rest piw hme.1] at this
            have harith : p + (piw + 1) = p + piw + 1 := by omega
            rw [harith] at this
            rw [hme.2]
            exact this
      · rw [if_neg hcond]
        refine ⟨fun hmem => absurd hmem (List.not_mem_nil d), fun hocc => ?_⟩
        obtain ⟨-, p, hp⟩ := hocc
        push_neg at hcond
        obtain ⟨w, hwmem, hwnone⟩ := hcond
        obtain ⟨j, hj, rfl⟩ := List.getElem_of_mem hwmem
        have := hp (j + 1) (by simpa using hj)
        rw [List.getD_cons_succ, getD_of_lt rest j hj] at this
        have hnone : alGet (getShard h s rest[j]).index rest[j] = none := by
          cases halg : alGet (getShard h s rest[j]).index rest[j] with
          | none => rfl
          | some dm2 => rw [halg] at hwnone; simp at hwnone
        rw [getPositions_absent h s _ d hnone] at this
        simp at this

/-! ## Concrete fixtures for closed evaluations -/

/-- A fixed within-run hash: any function of the word is a legitimate
instance of one process run's `hash`. -/
def hashFix : String → Nat := fun _ => 0

/-- A stand-in for `math.log` in concrete evaluations: it satisfies the two
facts of `ln` the claims rely on, `lg 1 = 0` and `1 < x → 0 < lg x`. -/
def lgFix : ℚ → ℚ := fun x => x - 1

/-! ## Claim theorems -/

/-- C1: the claim says that whenever `total_docs = 0` the search
short-circuits to an empty result before the IDF formula, so no division by
zero or `log 0` can occur.  The code has no such guard: at the state the
load path itself produces when a shard file exists but the metadata file is
absent (a posting for `"a"` but `total_docs = 0`), `search("a")` reaches
`math.log(0/1)` and raises `ValueError` (modelled as `none`) instead of
returning the empty result `some []`. -/
theorem c1_search_zero_total_docs_faults :
    loadIndex (fun _ : Nat => (none : Option Metadata))
        (fun _ : Nat => some [("a", [((1 : Int), [0])])]) 1 none [some 0]
      = Except.ok
          { num_shards := 1
            shards := [{ index := [("a", [((1 : Int), [0])])], is_dirty := false }]
            doc_lengths := [], total_docs := 0 } ∧
    search hashFix lgFix
        { num_shards := 1
          shards := [{ index := [("a", [((1 : Int), [0])])], is_dirty := false }]
          doc_lengths := [], total_docs := 0 } "a" true 100 = none ∧
    (none : Option (List (Int × ℚ))) ≠ some [] := by
  refine ⟨rfl, by decide, by simp⟩

/-- C2: routing `shard_for` is a pure function of the per-process hash seed
and the term, so repeated calls within one run agree; but Python's builtin
string hash is salted per process, and across two runs with different seeds
the same term can land on different shards (here `"a"` with 4 shards maps
to shard 1 under seed 0 and shard 2 under seed 1), contradicting the claim
that routing is identical across process restarts. -/
theorem c2_routing_seed_dependent :
    (∀ seed n : Nat, ∀ w : String, shard_for seed w n = pyHashStr seed w % n) ∧
    shard_for 0 "a" 4 = 1 ∧ shard_for 1 "a" 4 = 2 ∧
    shard_for 0 "a" 4 ≠ shard_for 1 "a" 4 :=
  ⟨fun _ _ _ => rfl, by decide, by decide, by decide⟩

/-- C8: the load path leaves state untouched when a file is absent,
propagates a deserialization failure of an existing shard or metadata file
as an error, never substitutes an empty shard for an unreadable file, and
installs the decoded contents on success. -/
theorem c8_load_failure_propagates (β : Type)
    (deserS : β → Option (List (String × List (Int × List Nat))))
    (deserM : β → Option Metadata) (sh : IndexShard) (s : InvertedIndex) (b bm : β) :
    (sh.load deserS none = Except.ok sh) ∧
    (deserS b = none → sh.load deserS (some b) = Except.error LoadError.malformed) ∧
    (∀ ix, deserS b = some ix → sh.load deserS (some b) = Except.ok { sh with index := ix }) ∧
    (deserS b = none → ∀ sh2, sh.load deserS (some b) ≠ Except.ok sh2) ∧
    (loadMetadata deserM s none = Except.ok s) ∧
    (deserM bm = none → loadMetadata deserM s (some bm) = Except.error LoadError.malformed) ∧
    (∀ md, deserM bm = some md →
      loadMetadata deserM s (some bm)
        = Except.ok { s with doc_lengths := md.doc_lengths, total_docs := md.total_docs }) := by
  refine ⟨rfl, ?_, ?_, ?_, rfl, ?_, ?_⟩
  · intro hd
    rw [IndexShard.load, hd]
  · intro ix hd
    rw [IndexShard.load, hd]
  · intro hd sh2
    rw [IndexShard.load, hd]
    simp
  · intro hd
    rw [loadMetadata, hd]
  · intro md hd
    rw [loadMetadata, hd]

/-- C8 witness: concrete instantiations of the load contract, with a
deserializer that always fails for the error branch and one that succeeds
for the happy branch. -/
theorem c8_load_failure_propagates_witness :
    (({ index := [], is_dirty := false } : IndexShard).load
        (fun _ : Nat => (none : Option (List (String × List (Int × List Nat))))) (some 0)
      = Except.error LoadError.malformed) ∧
    (({ index := [], is_dirty := false } : IndexShard).load
        (fun _ : Nat => (none : Option (List (String × List (Int × List Nat))))) none
      = Except.ok { index := [], is_dirty := false }) ∧
    (loadMetadata (fun _ : Nat => (none : Option Metadata)) (emptyIndex 1) (some 0)
      = Except.error LoadError.malformed) :=
  ⟨(c8_load_failure_propagates Nat (fun _ => none) (fun _ => none)
      { index := [], is_dirty := false } (emptyIndex 1) 0 0).2.1 rfl,
   (c8_load_failure_propagates Nat (fun _ => none) (fun _ => none)
      { index := [], is_dirty := false } (emptyIndex 1) 0 0).1,
   (c8_load_failure_propagates Nat (fun _ => none) (fun _ => none)
      { index := [], is_dirty := false } (emptyIndex 1) 0 0).2.2.2.2.2.1 rfl⟩

/-- C9: saving a clean shard is a no-op on both the shard and its file, the
(only) update operation marks the shard dirty, and saving a dirty shard
writes the full serialized mapping and clears the flag. -/
theorem c9_dirty_flag_gates_save (β : Type)
    (ser : List (String × List (Int × List Nat)) → β) (sh : IndexShard)
    (file : Option β) (wd : List (String × List (Int × Nat))) :
    (sh.is_dirty = false → sh.save ser file = (sh, file)) ∧
    ((updateShard sh wd).is_dirty = true) ∧
    (sh.is_dirty = true →
      sh.save ser file = ({ sh with is_dirty := false }, some (ser sh.index))) := by
  refine ⟨?_, rfl, ?_⟩
  · intro hf
    rw [IndexShard.save, hf]
    simp
  · intro ht
    rw [IndexShard.save, ht]
    simp

/-- C9 witness: saving one concrete dirty shard rewrites and cleans it;
saving a clean shard changes nothing. -/
theorem c9_dirty_flag_gates_save_witness :
    (({ index := [("a", [((1 : Int), [0])])], is_dirty := true } : IndexShard).save
        (fun ix => ix) none
      = ({ index := [("a", [((1 : Int), [0])])], is_dirty := false },
         some [("a", [((1 : Int), [0])])])) ∧
    (({ index := [], is_dirty := false } : IndexShard).save (fun ix => ix) none
      = ({ index := [], is_dirty := false }, none)) :=
  ⟨(c9_dirty_flag_gates_save _ (fun ix => ix)
      { index := [("a", [((1 : Int), [0])])], is_dirty := true } none []).2.2 rfl,
   (c9_dirty_flag_gates_save _ (fun ix => ix)
      { index := [], is_dirty := false } none []).1 rfl⟩

/-- Characterization of every stored posting of a state built from a
nodup-keyed document list: it is the occurrence-index list of its word in
its document's tokenized content, and it is nonempty. -/
theorem built_entry_chars (h : String → Nat) (n bs : Nat) (docs : List (Int × String))
    (hn : 0 < n) (hbs : 0 < bs) (hnd : keysNodup docs) :
    ∀ i, i < (add_documents h bs (emptyIndex n) docs).shards.length →
    ∀ wdm ∈ ((add_documents h bs (emptyIndex n) docs).shards.getD i
        { index := [], is_dirty := false }).index,
    ∀ dps ∈ wdm.2,
      ∃ c, alGet docs dps.1 = some c ∧ dps.2 = occIdx wdm.1 (preprocess_text c)
        ∧ dps.2 ≠ [] := by
  intro i hi wdm hwdm dps hdps
  have hwf := shardsWF_built h n bs docs hn
  have hpos := entry_posOf h (add_documents h bs (emptyIndex n) docs) hwf i hi wdm hwdm
    dps hdps
  have heff := add_documents_effect h bs (emptyIndex n) docs hbs hnd
    (by simp [emptyIndex]) (by simpa [emptyIndex] using hn)
  have hposchar := heff.2.2.2.1 wdm.1 dps.1
  rw [posOf_empty] at hposchar
  rw [hpos] at hposchar
  cases hadds : occAdds docs wdm.1 dps.1 with
  | nil =>
    rw [hadds] at hposchar
    simp [appOpt] at hposchar
  | cons p0 rest0 =>
    rw [hadds] at hposchar
    rw [appOpt] at hposchar
    simp only [Option.getD_none, List.nil_append] at hposchar
    have hdv : dps.2 = p0 :: rest0 := Option.some.inj hposchar
    have hadds2 : occAdds docs wdm.1 dps.1 = dps.2 := by rw [hadds, hdv]
    have hanodup := occAdds_nodup docs wdm.1 dps.1 hnd
    rw [hadds2] at hanodup
    cases hdocget : alGet docs dps.1 with
    | none =>
      rw [hdocget] at hanodup
      simp at hanodup
      rw [hdv] at hanodup
      exact absurd hanodup (by simp)
    | some c =>
      refine ⟨c, rfl, ?_, ?_⟩
      · rw [hdocget] at hanodup
        simpa using hanodup
      · rw [hdv]
        simp

/-- C4 (amended): scores are computed once per query-term occurrence, not
per distinct term, and merged by summing; a query in which the same token
appears twice therefore returns the same documents in the same order but
with every score doubled, rather than the same scores. -/
theorem c4_duplicate_terms_scale_scores (h : String → Nat) (lg : ℚ → ℚ) (s : InvertedIndex)
    (t : String) (flag : Bool) (m : Nat) :
    searchTokens h lg s [t, t] flag m
      = (searchTokens h lg s [t] flag m).map fun r => r.map fun p => (p.1, p.2 + p.2) :=
  searchTokens_dup h lg s t flag m

/-- C4 counterexample: after indexing document 1 = "a b", the query "a a"
returns score 2 for document 1 while "a" returns score 1, so a duplicated
query token does not yield the same result list and scores. -/
theorem c4_counterexample :
    search hashFix lgFix (add_documents hashFix 1000 (emptyIndex 1) [(1, "a b")])
        "a a" false 100 = some [(1, 2)] ∧
    search hashFix lgFix (add_documents hashFix 1000 (emptyIndex 1) [(1, "a b")])
        "a" false 100 = some [(1, 1)] ∧
    search hashFix lgFix (add_documents hashFix 1000 (emptyIndex 1) [(1, "a b")])
        "a a" false 100
      ≠ search hashFix lgFix (add_documents hashFix 1000 (emptyIndex 1) [(1, "a b")])
          "a" false 100 := by
  refine ⟨by with_unfolding_all decide, by with_unfolding_all decide,
    by with_unfolding_all decide⟩

/-- C5: `phrase_search` is the fixed-size-100 instance of the grouped scan;
for every group size the result contains exactly the documents in which the
tokenized phrase occurs as a contiguous run of stored positions; and on the
concrete document "the quick brown fox" the phrase "quick brown" matches
while the reversed "brown quick" does not. -/
theorem c5_phrase_search_exact (b : Nat) (h : String → Nat) (s : InvertedIndex)
    (phrase : String) (d : Int) (hb : 0 < b) :
    (phrase_search h s phrase = phraseSearchWith 100 h s phrase) ∧
    (d ∈ phraseSearchWith b h s phrase ↔ PhraseOccurs h s (preprocess_text phrase) d) ∧
    (d ∈ phrase_search h s phrase ↔ PhraseOccurs h s (preprocess_text phrase) d) ∧
    (phrase_search hashFix
        (add_documents hashFix 1000 (emptyIndex 4) [(7, "the quick brown fox")])
        "quick brown" = [7]) ∧
    (phrase_search hashFix
        (add_documents hashFix 1000 (emptyIndex 4) [(7, "the quick brown fox")])
        "brown quick" = []) :=
  ⟨rfl, phraseSearchWith_mem b h s phrase d hb,
   phraseSearchWith_mem 100 h s phrase d (by decide), by decide, by decide⟩

/-- C5 witness: the phrase-search contract instantiated at group size 3 on a
concrete state. -/
theorem c5_phrase_search_exact_witness :
    (phrase_search hashFix (emptyIndex 1) "x" = phraseSearchWith 100 hashFix (emptyIndex 1) "x") ∧
    ((0 : Int) ∈ phraseSearchWith 3 hashFix (emptyIndex 1) "x"
      ↔ PhraseOccurs hashFix (emptyIndex 1) (preprocess_text "x") 0) ∧
    ((0 : Int) ∈ phrase_search hashFix (emptyIndex 1) "x"
      ↔ PhraseOccurs hashFix (emptyIndex 1) (preprocess_text "x") 0) ∧
    (phrase_search hashFix
        (add_documents hashFix 1000 (emptyIndex 4) [(7, "the quick brown fox")])
        "quick brown" = [7]) ∧
    (phrase_search hashFix
        (add_documents hashFix 1000 (emptyIndex 4) [(7, "the quick brown fox")])
        "brown quick" = []) :=
  c5_phrase_search_exact 3 hashFix (emptyIndex 1) "x" 0 (by decide)

/-- C6 (amended): `total_docs` advances by the number of ingested pairs
(counting repeats), which equals the number of distinct ids when no id is
ever repeated; ingesting `docs1` then id-disjoint `docs2` leaves
`total_docs = N + M` and leaves the recorded lengths and every posting list
of the first batch's documents unchanged, so they remain searchable as
before. -/
theorem c6_ingest_disjoint_batches (h : String → Nat) (n bs : Nat)
    (docs1 docs2 : List (Int × String)) (hn : 0 < n) (hbs : 0 < bs)
    (hnd : keysNodup (docs1 ++ docs2)) :
    (add_documents h bs (emptyIndex n) docs1).total_docs = docs1.length ∧
    (add_documents h bs (add_documents h bs (emptyIndex n) docs1) docs2).total_docs
      = docs1.length + docs2.length ∧
    ∀ d ∈ docs1.map Prod.fst,
      alGet (add_documents h bs (add_documents h bs (emptyIndex n) docs1) docs2).doc_lengths d
          = alGet (add_documents h bs (emptyIndex n) docs1).doc_lengths d ∧
      ∀ w, posOf h (add_documents h bs (add_documents h bs (emptyIndex n) docs1) docs2) w d
          = posOf h (add_documents h bs (emptyIndex n) docs1) w d := by
  have hndparts : keysNodup docs1 ∧ keysNodup docs2 ∧
      (docs1.map Prod.fst).Disjoint (docs2.map Prod.fst) := by
    rw [keysNodup, List.map_append, List.nodup_append] at hnd
    exact hnd
  have heff1 := add_documents_effect h bs (emptyIndex n) docs1 hbs hndparts.1
    (by simp [emptyIndex]) (by simpa [emptyIndex] using hn)
  have heff2 := add_documents_effect h bs (add_documents h bs (emptyIndex n) docs1) docs2 hbs
    hndparts.2.1
    (by rw [heff1.2.1, heff1.1]; simp [emptyIndex])
    (by rw [heff1.1]; simpa [emptyIndex] using hn)
  refine ⟨?_, ?_, ?_⟩
  · rw [heff1.2.2.1]
    simp [emptyIndex]
  · rw [heff2.2.2.1, heff1.2.2.1]
    simp [emptyIndex]
  · intro d hd
    have hd2 : alGet docs2 d = none :=
      (alGet_eq_none_iff _ _).2 fun hm => hndparts.2.2 hd hm
    constructor
    · have := heff2.2.2.2.2 d
      rw [hd2] at this
      exact this
    · intro w
      have := heff2.2.2.2.1 w d
      rw [this]
      have hocc : occAdds docs2 w d = [] := by
        rw [occAdds_nodup docs2 w d hndparts.2.1, hd2]
        rfl
      rw [hocc, appOpt_nil]

/-- C6 witness: ingesting one document then a disjoint one. -/
theorem c6_ingest_disjoint_batches_witness :
    (add_documents hashFix 1000 (emptyIndex 1) [((1 : Int), "a")]).total_docs = 1 ∧
    (add_documents hashFix 1000 (add_documents hashFix 1000 (emptyIndex 1) [((1 : Int), "a")])
        [((2 : Int), "b")]).total_docs = 1 + 1 ∧
    ∀ d ∈ ([((1 : Int), "a")] : List (Int × String)).map Prod.fst,
      alGet (add_documents hashFix 1000
          (add_documents hashFix 1000 (emptyIndex 1) [((1 : Int), "a")])
          [((2 : Int), "b")]).doc_lengths d
        = alGet (add_documents hashFix 1000 (emptyIndex 1) [((1 : Int), "a")]).doc_lengths d ∧
      ∀ w, posOf hashFix (add_documents hashFix 1000
            (add_documents hashFix 1000 (emptyIndex 1) [((1 : Int), "a")])
            [((2 : Int), "b")]) w d
        = posOf hashFix (add_documents hashFix 1000 (emptyIndex 1) [((1 : Int), "a")]) w d :=
  c6_ingest_disjoint_batches hashFix 1 1000 [((1 : Int), "a")] [((2 : Int), "b")]
    (by decide) (by decide) (by decide)

/-- C6 counterexample: ingesting the same id twice advances `total_docs` to
2 although only one distinct document id was ever ingested. -/
theorem c6_counterexample :
    (add_documents hashFix 1000 (emptyIndex 1) [(1, "a"), (1, "b")]).total_docs = 2 ∧
    ((([(1, "a"), (1, "b")] : List (Int × String)).map Prod.fst).dedup).length = 1 := by
  refine ⟨by decide, by decide⟩

/-- C7 (amended): when no document id is ingested twice, every stored
position list is strictly increasing and equals, in order, exactly the
occurrence indices the collect phase observed for its word in its document's
token list; in particular it contains no duplicate position. -/
theorem c7_positions_strictly_increasing (h : String → Nat) (n bs : Nat)
    (docs : List (Int × String)) (hn : 0 < n) (hbs : 0 < bs) (hnd : keysNodup docs) :
    ∀ i, i < (add_documents h bs (emptyIndex n) docs).shards.length →
    ∀ wdm ∈ ((add_documents h bs (emptyIndex n) docs).shards.getD i
        { index := [], is_dirty := false }).index,
    ∀ dps ∈ wdm.2,
      List.Pairwise (· < ·) dps.2 ∧
      ∃ c, alGet docs dps.1 = some c ∧ dps.2 = occIdx wdm.1 (preprocess_text c) := by
  intro i hi wdm hwdm dps hdps
  obtain ⟨c, hc, hv, -⟩ := built_entry_chars h n bs docs hn hbs hnd i hi wdm hwdm dps hdps
  refine ⟨?_, c, hc, hv⟩
  rw [hv]
  exact occIdx_pairwise _ _

/-- C7 witness: the ordering invariant at the concrete posting the word "a"
of document 1 = "a b a" receives (positions 0 and 2). -/
theorem c7_positions_strictly_increasing_witness :
    List.Pairwise (· < ·) ([0, 2] : List Nat) ∧
    ∃ c, alGet [((1 : Int), "a b a"), ((2 : Int), "b b")] (1 : Int) = some c ∧
      ([0, 2] : List Nat) = occIdx "a" (preprocess_text c) :=
  c7_positions_strictly_increasing hashFix 1 1000 [((1 : Int), "a b a"), ((2 : Int), "b b")]
    (by decide) (by decide) (by decide) 0 (by decide) ("a", [((1 : Int), [0, 2])])
    (by decide) ((1 : Int), [0, 2]) (by decide)

/-- C7 counterexample: re-ingesting document id 1 with the same content
appends position 0 twice, so the stored list [0, 0] is not strictly
increasing and duplicates a position. -/
theorem c7_counterexample :
    posOf hashFix (add_documents hashFix 1000 (emptyIndex 1) [(1, "a"), (1, "a")]) "a" 1
        = some [0, 0] ∧
    ¬ List.Pairwise (· < ·) ([0, 0] : List Nat) := by
  refine ⟨by decide, by decide⟩

/-- C3 (amended): with both documents indexed at equal recorded length, the
term occurring strictly more often in A than in B, every posting document
carrying a nonzero recorded length, and — the amendment the counterexample
forces — at least one indexed document not containing t (so
`df < total_docs` and the IDF factor is positive, where `lg` models the
strictly-positive-on-(1, ∞) natural logarithm), the TF-IDF score map of the
single-term query assigns A a strictly greater score than B. -/
theorem c3_tfidf_monotonic (h : String → Nat) (lg : ℚ → ℚ) (s : InvertedIndex)
    (q t : String) (A B : Int) (dm : List (Int × List Nat)) (psA : List Nat) (L : Nat)
    (m : Nat)
    (hq : preprocess_text q = [t])
    (hget : alGet (getShard h s t).index t = some dm)
    (hA : alGet dm A = some psA)
    (hLA : alGet s.doc_lengths A = some L)
    (hLB : alGet s.doc_lengths B = some L)
    (hL0 : L ≠ 0)
    (hocc : ((alGet dm B).map List.length).getD 0 < psA.length)
    (hnd : keysNodup dm)
    (hdf : dm.length < s.total_docs)
    (hlook : ∀ dps ∈ dm, ∃ Ld, alGet s.doc_lengths dps.1 = some Ld ∧ Ld ≠ 0)
    (hlg : ∀ x : ℚ, 1 < x → 0 < lg x) :
    ∃ sc, searchScores h lg s [t] true = some sc ∧
      search h lg s q true m = some ((sortScoresDesc sc).take m) ∧
      (alGet sc B).getD 0 < (alGet sc A).getD 0 := by
  have hdm : dm ≠ [] := by
    intro hh
    rw [hh] at hA
    simp [alGet] at hA
  have htot : s.total_docs ≠ 0 := by omega
  have hpt := processTerm_tfidf h lg s t dm hget hdm htot hnd hlook
  set f : Int × List Nat → ℚ := fun dps =>
    ((dps.2.length : ℚ) / (((alGet s.doc_lengths dps.1).getD 1 : Nat) : ℚ))
      * lg ((s.total_docs : ℚ) / (dm.length : ℚ)) with hf
  set sc := dm.map fun dps => (dps.1, f dps) with hsc
  have hscn : keysNodup sc := by
    have hkeys : sc.map Prod.fst = dm.map Prod.fst := by
      rw [hsc, List.map_map]
      rfl
    rw [keysNodup, hkeys]
    exact hnd
  have hss : searchScores h lg s [t] true = some sc := by
    rw [searchScores, List.foldl_cons, List.foldl_nil, hpt]
    simp only []
    rw [mergeScores_fresh [] sc (by simpa using hscn)]
    simp
  have hsearch : search h lg s q true m = some ((sortScoresDesc sc).take m) := by
    rw [search, hq, searchTokens, if_neg (by simp), hss]
    rfl
  refine ⟨sc, hss, hsearch, ?_⟩
  have hdmpos : 0 < dm.length := List.length_pos.2 hdm
  have hidf : 0 < lg ((s.total_docs : ℚ) / (dm.length : ℚ)) := by
    apply hlg
    rw [one_lt_div (by exact_mod_cast hdmpos)]
    exact_mod_cast hdf
  have hLpos : (0 : ℚ) < ((L : Nat) : ℚ) := by
    exact_mod_cast Nat.pos_of_ne_zero hL0
  have hgA : alGet sc A = some (f (A, psA)) := alGet_map_entry f dm A psA hA
  have hfA : f (A, psA)
      = ((psA.length : ℚ) / ((L : Nat) : ℚ)) * lg ((s.total_docs : ℚ) / (dm.length : ℚ)) := by
    rw [hf]
    simp [hLA]
  cases hB : alGet dm B with
  | none =>
    have hgB : alGet sc B = none := alGet_map_entry_none f dm B hB
    rw [hgA, hgB]
    simp only [Option.getD_some, Option.getD_none]
    rw [hfA]
    rw [hB] at hocc
    simp at hocc
    apply mul_pos (div_pos _ hLpos) hidf
    exact_mod_cast hocc
  | some psB =>
    have hgB : alGet sc B = some (f (B, psB)) := alGet_map_entry f dm B psB hB
    rw [hgA, hgB]
    simp only [Option.getD_some]
    rw [hfA]
    have hfB : f (B, psB)
        = ((psB.length : ℚ) / ((L : Nat) : ℚ))
            * lg ((s.total_docs : ℚ) / (dm.length : ℚ)) := by
      rw [hf]
      simp [hLB]
    rw [hfB]
    apply mul_lt_mul_of_pos_right _ hidf
    rw [hB] at hocc
    simp at hocc
    exact div_lt_div_of_pos_right (by exact_mod_cast hocc) hLpos

/-- C3 counterexample: corpus of exactly A = "t t" and B = "t s" (equal
length 2, t twice in A versus once in B, both indexed).  Every document
contains t, so idf = log(2/2) = log 1 = 0 (the stand-in `lgFix` agrees with
`ln` at 1) and both scores are 0: the search does not assign A a strictly
greater score than B. -/
theorem c3_counterexample :
    (occIdx "t" (preprocess_text "t t")).length = 2 ∧
    (occIdx "t" (preprocess_text "t s")).length = 1 ∧
    (preprocess_text "t t").length = (preprocess_text "t s").length ∧
    lgFix 1 = 0 ∧
    search hashFix lgFix (add_documents hashFix 1000 (emptyIndex 1) [(1, "t t"), (2, "t s")])
        "t" true 100 = some [(1, 0), (2, 0)] ∧
    ¬((0 : ℚ) > (0 : ℚ)) := by
  refine ⟨by decide, by decide, by decide, by with_unfolding_all decide,
    by with_unfolding_all decide, by simp⟩

/-- C3 witness: three concrete documents, one of which lacks t, make the
amended hypotheses satisfiable and the strict comparison real. -/
theorem c3_tfidf_monotonic_witness :
    ∃ sc, searchScores hashFix lgFix
        (add_documents hashFix 1000 (emptyIndex 1)
          [((1 : Int), "t t"), (2, "t x"), (3, "y y")]) ["t"] true = some sc ∧
      search hashFix lgFix
          (add_documents hashFix 1000 (emptyIndex 1)
            [((1 : Int), "t t"), (2, "t x"), (3, "y y")]) "t" true 100
        = some ((sortScoresDesc sc).take 100) ∧
      (alGet sc (2 : Int)).getD 0 < (alGet sc 1).getD 0 :=
  c3_tfidf_monotonic hashFix lgFix
    (add_documents hashFix 1000 (emptyIndex 1) [((1 : Int), "t t"), (2, "t x"), (3, "y y")])
    "t" "t" 1 2 [(1, [0, 1]), (2, [0])] [0, 1] 2 100
    (by decide) (by decide) (by decide) (by decide) (by decide) (by decide) (by decide)
    (by decide) (by decide)
    (by
      intro dps hmem
      rcases List.mem_cons.1 hmem with rfl | hmem2
      · exact ⟨2, by decide, by decide⟩
      · rcases List.mem_cons.1 hmem2 with rfl | hmem3
        · exact ⟨2, by decide, by decide⟩
        · simp at hmem3)
    (fun x hx => sub_pos.mpr hx)

/-- C10 (amended): when no document id is ingested twice, every document id
appearing in any posting list has a recorded length of at least 1 (a
document gains postings only if it tokenized to at least one term), so the
term-frequency division of a TF-IDF search neither divides by zero nor
looks up a missing length: `search` never faults on such states. -/
theorem c10_doc_length_lookup_safe (h : String → Nat) (lg : ℚ → ℚ) (n bs : Nat)
    (docs : List (Int × String)) (q : String) (flag : Bool) (m : Nat) (S : InvertedIndex)
    (hn : 0 < n) (hbs : 0 < bs) (hnd : keysNodup docs)
    (hS : S = add_documents h bs (emptyIndex n) docs) :
    (∀ i, i < S.shards.length →
      ∀ wdm ∈ (S.shards.getD i { index := [], is_dirty := false }).index,
      ∀ dps ∈ wdm.2, ∃ L, alGet S.doc_lengths dps.1 = some L ∧ 1 ≤ L) ∧
    search h lg S q flag m ≠ none := by
  subst hS
  have heff := add_documents_effect h bs (emptyIndex n) docs hbs hnd
    (by simp [emptyIndex]) (by simpa [emptyIndex] using hn)
  have hchars := built_entry_chars h n bs docs hn hbs hnd
  have hpartA : ∀ i, i < (add_documents h bs (emptyIndex n) docs).shards.length →
      ∀ wdm ∈ ((add_documents h bs (emptyIndex n) docs).shards.getD i
          { index := [], is_dirty := false }).index,
      ∀ dps ∈ wdm.2,
        ∃ L, alGet (add_documents h bs (emptyIndex n) docs).doc_lengths dps.1 = some L
          ∧ 1 ≤ L := by
    intro i hi wdm hwdm dps hdps
    obtain ⟨c, hc, hv, hne⟩ := hchars i hi wdm hwdm dps hdps
    refine ⟨(preprocess_text c).length, ?_, ?_⟩
    · have hdl := heff.2.2.2.2 dps.1
      rw [hc] at hdl
      exact hdl
    · rw [hv] at hne
      have htok : preprocess_text c ≠ [] := by
        intro hh
        rw [hh] at hne
        exact hne rfl
      have := List.length_pos.2 htok
      omega
  refine ⟨hpartA, ?_⟩
  rw [search]
  by_cases hq : preprocess_text q = []
  · rw [searchTokens, if_pos hq]
    simp
  · rw [searchTokens, if_neg hq]
    have hssn : searchScores h lg (add_documents h bs (emptyIndex n) docs)
        (preprocess_text q) flag ≠ none := by
      apply searchScores_ne_none
      intro t htmem
      apply processTerm_ne_none
      intro dm hget
      have hnum : (add_documents h bs (emptyIndex n) docs).num_shards = n := heff.1
      have hlen2 : (add_documents h bs (emptyIndex n) docs).shards.length = n := by
        rw [heff.2.1]
        simp [emptyIndex]
      have hilt : shardIdFor h (add_documents h bs (emptyIndex n) docs).num_shards t
          < (add_documents h bs (emptyIndex n) docs).shards.length := by
        rw [hnum, hlen2]
        exact Nat.mod_lt _ hn
      have hmem : (t, dm) ∈ ((add_documents h bs (emptyIndex n) docs).shards.getD
          (shardIdFor h (add_documents h bs (emptyIndex n) docs).num_shards t)
          { index := [], is_dirty := false }).index := mem_of_alGet hget
      have hwf := shardsWF_built h n bs docs hn
      obtain ⟨hndix, hprop⟩ := hwf _ hilt
      obtain ⟨hroute, hdm_ne, hnddm⟩ := hprop (t, dm) hmem
      refine ⟨hdm_ne, ?_, ?_⟩
      · obtain ⟨dps, hdps⟩ := List.exists_mem_of_ne_nil _ hdm_ne
        obtain ⟨c, hc, -, -⟩ := hchars _ hilt (t, dm) hmem dps hdps
        have hdocs : docs ≠ [] := by
          intro hh
          rw [hh] at hc
          simp [alGet] at hc
        have htotal : (add_documents h bs (emptyIndex n) docs).total_docs = docs.length := by
          rw [heff.2.2.1]
          simp [emptyIndex]
        rw [htotal]
        intro hh
        exact hdocs (List.length_eq_zero.1 hh)
      · intro dps hdps
        obtain ⟨L, hgetL, hL1⟩ := hpartA _ hilt (t, dm) hmem dps hdps
        exact ⟨L, hgetL, by omega⟩
    cases hsc : searchScores h lg (add_documents h bs (emptyIndex n) docs)
        (preprocess_text q) flag with
    | none => exact absurd hsc hssn
    | some sc => simp

/-- C10 witness: the safety property on a concrete one-document state. -/
theorem c10_doc_length_lookup_safe_witness :
    (∀ i, i < (add_documents hashFix 1000 (emptyIndex 1) [((1 : Int), "a")]).shards.length →
      ∀ wdm ∈ ((add_documents hashFix 1000 (emptyIndex 1)
          [((1 : Int), "a")]).shards.getD i { index := [], is_dirty := false }).index,
      ∀ dps ∈ wdm.2,
        ∃ L, alGet (add_documents hashFix 1000 (emptyIndex 1)
            [((1 : Int), "a")]).doc_lengths dps.1 = some L ∧ 1 ≤ L) ∧
    search hashFix lgFix (add_documents hashFix 1000 (emptyIndex 1) [((1 : Int), "a")])
        "a" true 100 ≠ none :=
  c10_doc_length_lookup_safe hashFix lgFix 1 1000 [((1 : Int), "a")] "a" true 100 _
    (by decide) (by decide) (by decide) rfl

/-- C10 counterexample: re-ingesting id 1 with empty content overwrites its
recorded length to 0 while its posting for "a" survives, and the TF-IDF
search then divides by zero (modelled `none`). -/
theorem c10_counterexample :
    posOf hashFix (add_documents hashFix 1000 (emptyIndex 1) [(1, "a"), (1, "")]) "a" 1
        = some [0] ∧
    alGet (add_documents hashFix 1000 (emptyIndex 1) [(1, "a"), (1, "")]).doc_lengths 1
        = some 0 ∧
    search hashFix lgFix (add_documents hashFix 1000 (emptyIndex 1) [(1, "a"), (1, "")])
        "a" true 100 = none := by
  refine ⟨by decide, by decide, by with_unfolding_all decide⟩
